import Mathlib

/-!
Verification of the template rendering engine (renderTemplate, escapeTemplate,
hasTemplateSyntax and their helpers) as a shallow embedding over `List Char`.

The JavaScript source drives every definition:
  * strings are `List Char`,
  * JS values stored in a render context are the inductive `Value`
    (strings, integral numbers, booleans, null, undefined, arrays,
    plain objects; prototype members other than array `length` and
    numeric indices are not modelled, and numbers are modelled as
    integers, which covers every value the engine's own logic inspects),
  * the regular-expression driven scanning of the source is realised by
    hand-rolled scanners that implement the exact leftmost-match,
    greedy/lazy backtracking behaviour of the concrete regexes used by
    the code (each scanner is analysed against its regex in the comments).
-/

namespace Tmpl

/-- Whitespace characters matched by the JavaScript regex class `\s`
(also the set removed by `String.prototype.trim`). -/
def isWs (c : Char) : Bool :=
  let n := c.toNat
  n = 9 || n = 10 || n = 11 || n = 12 || n = 13 || n = 32 ||
  n = 0xa0 || n = 0x1680 || (0x2000 ≤ n && n ≤ 0x200a) ||
  n = 0x2028 || n = 0x2029 || n = 0x202f || n = 0x205f || n = 0x3000 || n = 0xfeff

/-- Line terminators: the characters NOT matched by `.` without the `s` flag. -/
def isLineTerm (c : Char) : Bool :=
  let n := c.toNat
  n = 10 || n = 13 || n = 0x2028 || n = 0x2029

/-- Characters matched by the JavaScript regex class `\w`. -/
def isWordChar (c : Char) : Bool :=
  ('a' ≤ c && c ≤ 'z') || ('A' ≤ c && c ≤ 'Z') || ('0' ≤ c && c ≤ '9') || c = '_'

/-- Characters matched by the class `[\w.]` used for variable paths. -/
def isPathChar (c : Char) : Bool :=
  isWordChar c || c = '.'

/-- Quote characters, the class `["']`. -/
def isQuote (c : Char) : Bool :=
  c = '\"' || c = '\''

/-- Decimal digits. -/
def isDigitCh (c : Char) : Bool :=
  '0' ≤ c && c ≤ '9'

/-- The keyword `if` as characters. -/
def ifW : List Char := ['i', 'f']

/-- The keyword `else` as characters. -/
def elseW : List Char := ['e', 'l', 's', 'e']

/-- The keyword `endif` as characters. -/
def endifW : List Char := ['e', 'n', 'd', 'i', 'f']

/-- The keyword `for` as characters. -/
def forW : List Char := ['f', 'o', 'r']

/-- The keyword `in` as characters. -/
def inW : List Char := ['i', 'n']

/-- The keyword `endfor` as characters. -/
def endforW : List Char := ['e', 'n', 'd', 'f', 'o', 'r']

/-- The condition operator `not ` (with its trailing space). -/
def notW : List Char := ['n', 'o', 't', ' ']

/-- The array property name `length` as characters. -/
def lengthW : List Char := ['l', 'e', 'n', 'g', 't', 'h']

/-- Whether the two-character sequence `p1 p2` occurs in `s`. -/
def hasPair (p1 p2 : Char) : List Char → Bool
  | c1 :: c2 :: rest => (c1 = p1 && c2 = p2) || hasPair p1 p2 (c2 :: rest)
  | _ => false

/-- Whether the character `p` occurs three times in a row in `s`. -/
def hasTriple (p : Char) : List Char → Bool
  | c1 :: c2 :: c3 :: rest => (c1 = p && c2 = p && c3 = p) || hasTriple p (c2 :: c3 :: rest)
  | _ => false

/-- Match a literal character sequence at the head of the input,
returning the remainder on success. -/
def matchLit : List Char → List Char → Option (List Char)
  | [], s => some s
  | _, [] => none
  | l :: ls, c :: cs => if c = l then matchLit ls cs else none

/-- JS values that can appear in a render context. -/
inductive Value : Type where
  | str : List Char → Value
  | num : Int → Value
  | bool : Bool → Value
  | null : Value
  | undefined : Value
  | arr : List Value → Value
  | obj : List (List Char × Value) → Value

/-- A render context: a plain JS object from identifiers to values. -/
abbrev Context := List (List Char × Value)

/-- First binding of a key in an object/context (JS property lookup). -/
def ctxFind : Context → List Char → Option Value
  | [], _ => none
  | (k, v) :: rest, key => if k = key then some v else ctxFind rest key

/-- The JS `key in context` test. -/
def hasKey (ctx : Context) (k : List Char) : Bool :=
  (ctxFind ctx k).isSome

/-- The JS member access `context[k]`: `undefined` when the key is absent. -/
def getKey (ctx : Context) (k : List Char) : Value :=
  (ctxFind ctx k).getD .undefined

/-- The spread-with-override `{...context, [k]: v}`: a fresh object in which
`k` is bound to `v` and every other key keeps its parent binding. -/
def ctxInsert (ctx : Context) (k : List Char) (v : Value) : Context :=
  (k, v) :: ctx

/-- JS truthiness `Boolean(v)`. -/
def truthy : Value → Bool
  | .str s => !s.isEmpty
  | .num n => n ≠ 0
  | .bool b => b
  | .null => false
  | .undefined => false
  | .arr _ => true
  | .obj _ => true

mutual

/-- JS string coercion `String(v)` (arrays stringify as their
comma-join, objects as "[object Object]"). -/
def jsString : Value → List Char
  | .str s => s
  | .num n => (toString n).data
  | .bool b => if b then "true".data else "false".data
  | .null => "null".data
  | .undefined => "undefined".data
  | .arr xs => joinWith [','] xs
  | .obj _ => "[object Object]".data

/-- `Array.prototype.join` with an explicit separator. -/
def joinWith (sep : List Char) : List Value → List Char
  | [] => []
  | [v] => elemString v
  | v :: vs => elemString v ++ sep ++ joinWith sep vs

/-- How `Array.prototype.join` renders one element:
null and undefined become the empty string. -/
def elemString : Value → List Char
  | .null => []
  | .undefined => []
  | v => jsString v

end

/-- JS `path.split('.')` (and, with another separator, `split('|')`). -/
def splitOnCh (sep : Char) : List Char → List (List Char)
  | [] => [[]]
  | c :: rest =>
    if c = sep then [] :: splitOnCh sep rest
    else
      match splitOnCh sep rest with
      | s :: ss => (c :: s) :: ss
      | [] => [[c]]

/-- JS `parts.join('|')`. -/
def joinBar : List (List Char) → List Char
  | [] => []
  | [x] => x
  | x :: xs => x ++ '|' :: joinBar xs

/-- JS `String.prototype.trim`. -/
def trimWs (s : List Char) : List Char :=
  ((s.dropWhile isWs).reverse.dropWhile isWs).reverse

/-- Canonical array-index property names: `"0"`, `"1"`, ... with no
leading zero.  `p in arr` holds for exactly these below `length`. -/
def parseIndex (s : List Char) : Option Nat :=
  match s with
  | [] => none
  | c :: rest =>
    if s.all isDigitCh then
      if c = '0' && rest ≠ [] then none
      else some (s.foldl (fun acc d => 10 * acc + (d.toNat - 48)) 0)
    else none

/-- The guard `current && typeof current === 'object'` of `getNestedValue`
(null is falsy; only arrays and plain objects are objects here). -/
def objTruthy : Value → Bool
  | .arr _ => true
  | .obj _ => true
  | _ => false

/-- The JS `part in current` test for the values the guard lets through:
own keys of objects, and for arrays the `length` property and
in-bounds canonical indices. -/
def inValue (p : List Char) : Value → Bool
  | .obj kvs => (ctxFind kvs p).isSome
  | .arr xs =>
    p = lengthW ||
      (match parseIndex p with
       | some i => i < xs.length
       | none => false)
  | _ => false

/-- The member access `current[part]` for the same cases. -/
def indexValue (p : List Char) : Value → Value
  | .obj kvs => (ctxFind kvs p).getD .undefined
  | .arr xs =>
    if p = lengthW then .num xs.length
    else
      match parseIndex p with
      | some i => xs.getD i .undefined
      | none => .undefined
  | _ => .undefined

/-- The loop of `getNestedValue`: walk the dot-separated parts, returning
undefined as soon as a lookup is impossible. -/
def walkParts : Value → List (List Char) → Value
  | v, [] => v
  | v, p :: ps =>
    if objTruthy v && inValue p v then walkParts (indexValue p v) ps
    else .undefined

/-- `getNestedValue(context, path)` from the source: split the path on dots
and walk the context object. -/
def getNestedValue (ctx : Context) (path : List Char) : Value :=
  walkParts (.obj ctx) (splitOnCh '.' path)

/-! ## Regex scanners

Each of the source's regexes is realised by a deterministic scanner.
Determinism is justified case by case: every `\s*`/`\s+`/`\w+`/`[\w.]+`
quantifier in those regexes is followed by a literal that its character
class cannot match, so the greedy maximal munch never has to backtrack,
and each lazy `(.*?)` stops at the first position where the rest of the
pattern matches. -/

/-- The tail `\s*%}` of a tag.  Because `%` is not whitespace there is at
most one way to match it: skip whitespace and consume the first `%}`. -/
def matchWsClose : List Char → Option (List Char)
  | c1 :: c2 :: rest =>
    if c1 = '%' ∧ c2 = '}' then some rest
    else if isWs c1 then matchWsClose (c2 :: rest)
    else none
  | _ => none

/-- A closed tag `{%\s*word\s*%}`, e.g. `{% else %}`: returns the input
after the tag. -/
def matchTag (word : List Char) (s : List Char) : Option (List Char) :=
  match s with
  | c1 :: c2 :: rest =>
    if c1 = '{' ∧ c2 = '%' then
      match matchLit word (rest.dropWhile isWs) with
      | some r2 => matchWsClose r2
      | none => none
    else none
  | _ => none

/-- The lazy `(.*?)\s*%}` for an if-condition: the condition is the
shortest prefix from which `\s*%}` completes the header. -/
def scanCond : List Char → Option (List Char × List Char)
  | [] => none
  | c :: rest =>
    match matchWsClose (c :: rest) with
    | some r => some ([], r)
    | none =>
      match scanCond rest with
      | some (cond, r) => some (c :: cond, r)
      | none => none

/-- The lazy `(.*?){%\s*word\s*%}`: consume until the first closing tag. -/
def scanUntilTag (word : List Char) : List Char → Option (List Char × List Char)
  | [] => none
  | c :: rest =>
    match matchTag word (c :: rest) with
    | some r => some ([], r)
    | none =>
      match scanUntilTag word rest with
      | some (b, r) => some (c :: b, r)
      | none => none

/-- The if-block body `(.*?)(?:{%\s*else\s*%}(.*?))?{%\s*endif\s*%}`:
at each position the (greedy) optional else-group is tried first, then a
direct `{% endif %}`; on both failing, one character joins the if-branch.
An `{% else %}` whose tail has no `{% endif %}` falls through to
consuming one character, exactly as the backtracking engine does. -/
def scanIfBody : List Char → Option (List Char × List Char × List Char)
  | [] => none
  | c :: rest =>
    match matchTag elseW (c :: rest) with
    | some afterElse =>
      match scanUntilTag endifW afterElse with
      | some (elseB, r) => some ([], elseB, r)
      | none =>
        match scanIfBody rest with
        | some (ifB, elseB, r) => some (c :: ifB, elseB, r)
        | none => none
    | none =>
      match matchTag endifW (c :: rest) with
      | some r => some ([], [], r)
      | none =>
        match scanIfBody rest with
        | some (ifB, elseB, r) => some (c :: ifB, elseB, r)
        | none => none

/-- One attempt, at the current position, of the conditional regex
`/{%\s*if\s+(.*?)\s*%}(.*?)(?:{%\s*else\s*%}(.*?))?{%\s*endif\s*%}/gs`.
Returns (condition, if-branch, else-branch, remainder); the missing else
branch is the empty string, like the callback's default `elseBlock = ''`. -/
def tryMatchIf (s : List Char) : Option (List Char × List Char × List Char × List Char) :=
  match s with
  | c1 :: c2 :: r1 =>
    if c1 = '{' ∧ c2 = '%' then
      match matchLit ifW (r1.dropWhile isWs) with
      | some r2 =>
        match r2 with
        | c :: _ =>
          if isWs c then
            match scanCond (r2.dropWhile isWs) with
            | some (cond, r3) =>
              match scanIfBody r3 with
              | some (ifB, elseB, rest) => some (cond, ifB, elseB, rest)
              | none => none
            | none => none
          else none
        | [] => none
      | none => none
    else none
  | _ => none

/-! ## Condition evaluation -/

/-- One attempt, at the current position, of
`(\w+)\s*<op>\s*["']([^"']+)["']` (with `<op>` two characters, `==` or
`!=`): identifier, optional spaces, the operator, optional spaces, a
quoted nonempty literal (the closing quote may differ from the opener). -/
def tryCmpAt (op1 op2 : Char) (s : List Char) : Option (List Char × List Char) :=
  match s with
  | [] => none
  | c :: _ =>
    if isWordChar c then
      let w := s.takeWhile isWordChar
      let r1 := (s.dropWhile isWordChar).dropWhile isWs
      match r1 with
      | d1 :: d2 :: r2 =>
        if d1 = op1 ∧ d2 = op2 then
          match r2.dropWhile isWs with
          | q :: r4 =>
            if isQuote q then
              let content := r4.takeWhile (fun x => !isQuote x)
              if content ≠ [] ∧ r4.drop content.length ≠ [] then some (w, content)
              else none
            else none
          | [] => none
        else none
      | _ => none
    else none

/-- `condition.match(...)`: the comparison pattern is not anchored, so the
first position where it matches anywhere in the string wins. -/
def findCmp (op1 op2 : Char) : List Char → Option (List Char × List Char)
  | [] => none
  | c :: rest =>
    match tryCmpAt op1 op2 (c :: rest) with
    | some r => some r
    | none => findCmp op1 op2 rest

/-- JS strict equality `v === lit` against a string literal. -/
def strictEqStr (v : Value) (lit : List Char) : Bool :=
  match v with
  | .str s => s = lit
  | _ => false

/-- `evaluateCondition` from the source: key-presence truthiness, then the
`==` comparison, then `!=`, then the `not ` prefix, else false. -/
def evaluateCondition (cond : List Char) (ctx : Context) : Bool :=
  if hasKey ctx cond then truthy (getKey ctx cond)
  else
    match findCmp '=' '=' cond with
    | some (v, lit) => strictEqStr (getKey ctx v) lit
    | none =>
      match findCmp '!' '=' cond with
      | some (v, lit) => !strictEqStr (getKey ctx v) lit
      | none =>
        match matchLit notW cond with
        | some rest => !truthy (getKey ctx (trimWs rest))
        | none => false

/-! ## Length bounds for the scanners (used for termination and for the
replacement-span arguments) -/

theorem dropWhile_len (p : Char → Bool) (s : List Char) :
    (s.dropWhile p).length ≤ s.length := by
  induction s with
  | nil => simp
  | cons c rest ih =>
    by_cases h : p c
    · simp only [List.dropWhile, h]
      exact ih.trans (by simp)
    · simp [List.dropWhile, h]

theorem matchLit_len : ∀ {lit s r : List Char}, matchLit lit s = some r →
    r.length + lit.length ≤ s.length := by
  intro lit
  induction lit with
  | nil => intro s r h; simp [matchLit] at h; simp [h]
  | cons l ls ih =>
    intro s r h
    cases s with
    | nil => simp [matchLit] at h
    | cons c cs =>
      simp only [matchLit] at h
      split at h
      · have := ih h
        simp only [List.length_cons]
        omega
      · exact absurd h (by simp)

theorem matchWsClose_len : ∀ {s r : List Char}, matchWsClose s = some r →
    r.length + 2 ≤ s.length := by
  intro s
  induction s with
  | nil => intro r h; simp [matchWsClose] at h
  | cons c1 tail ih =>
    intro r h
    cases tail with
    | nil => simp [matchWsClose] at h
    | cons c2 rest =>
      simp only [matchWsClose] at h
      split at h
      · cases h
        simp only [List.length_cons]
        omega
      · split at h
        · have := ih h
          simp only [List.length_cons] at *
          omega
        · exact absurd h (by simp)

theorem matchTag_len {w s r : List Char} (h : matchTag w s = some r) :
    r.length + 4 ≤ s.length := by
  cases s with
  | nil => simp [matchTag] at h
  | cons c1 tail =>
    cases tail with
    | nil => simp [matchTag] at h
    | cons c2 rest =>
      simp only [matchTag] at h
      split at h
      · cases hlit : matchLit w (rest.dropWhile isWs) with
        | none => rw [hlit] at h; exact absurd h (by simp)
        | some r2 =>
          rw [hlit] at h
          have h1 := matchLit_len hlit
          have h2 := matchWsClose_len h
          have h3 := dropWhile_len isWs rest
          simp only [List.length_cons]
          omega
      · exact absurd h (by simp)

theorem scanCond_len : ∀ {s cond r : List Char}, scanCond s = some (cond, r) →
    cond.length + r.length + 2 ≤ s.length := by
  intro s
  induction s with
  | nil =>
    intro cond r h
    simp [scanCond] at h
  | cons c rest ih =>
    intro cond r h
    simp only [scanCond] at h
    cases hc : matchWsClose (c :: rest) with
    | some r0 =>
      rw [hc] at h
      cases h
      have := matchWsClose_len hc
      simpa using this
    | none =>
      rw [hc] at h
      cases hs : scanCond rest with
      | none => rw [hs] at h; exact absurd h (by simp)
      | some p =>
        obtain ⟨cond0, r0⟩ := p
        rw [hs] at h
        cases h
        have := ih hs
        simp only [List.length_cons]
        omega

theorem scanUntilTag_len : ∀ {w s b r : List Char}, scanUntilTag w s = some (b, r) →
    b.length + r.length + 4 ≤ s.length := by
  intro w s
  induction s with
  | nil => intro b r h; simp [scanUntilTag] at h
  | cons c rest ih =>
    intro b r h
    simp only [scanUntilTag] at h
    cases ht : matchTag w (c :: rest) with
    | some r0 =>
      rw [ht] at h
      cases h
      have := matchTag_len ht
      simpa using this
    | none =>
      rw [ht] at h
      cases hs : scanUntilTag w rest with
      | none => rw [hs] at h; exact absurd h (by simp)
      | some p =>
        obtain ⟨b0, r0⟩ := p
        rw [hs] at h
        cases h
        have := ih hs
        simp only [List.length_cons]
        omega

theorem scanIfBody_len : ∀ {s i e r : List Char}, scanIfBody s = some (i, e, r) →
    i.length + e.length + r.length + 4 ≤ s.length := by
  intro s
  induction s with
  | nil => intro i e r h; simp [scanIfBody] at h
  | cons c rest ih =>
    intro i e r h
    cases hel : matchTag elseW (c :: rest) with
    | some afterElse =>
      simp only [scanIfBody, hel] at h
      cases hu : scanUntilTag endifW afterElse with
      | some p =>
        obtain ⟨e0, r0⟩ := p
        simp only [hu] at h
        obtain ⟨rfl, rfl, rfl⟩ := h
        have h4 := matchTag_len hel
        have h5 := scanUntilTag_len hu
        simp only [List.length_nil]
        omega
      | none =>
        simp only [hu] at h
        cases hs : scanIfBody rest with
        | none => simp [hs] at h
        | some p =>
          obtain ⟨i0, e0, r0⟩ := p
          simp only [hs] at h
          obtain ⟨rfl, rfl, rfl⟩ := h
          have := ih hs
          simp only [List.length_cons]
          omega
    | none =>
      simp only [scanIfBody, hel] at h
      cases hen : matchTag endifW (c :: rest) with
      | some r0 =>
        simp only [hen] at h
        obtain ⟨rfl, rfl, rfl⟩ := h
        have := matchTag_len hen
        simpa using this
      | none =>
        simp only [hen] at h
        cases hs : scanIfBody rest with
        | none => simp [hs] at h
        | some p =>
          obtain ⟨i0, e0, r0⟩ := p
          simp only [hs] at h
          obtain ⟨rfl, rfl, rfl⟩ := h
          have := ih hs
          simp only [List.length_cons]
          omega

theorem tryMatchIf_len {s cond i e r : List Char}
    (h : tryMatchIf s = some (cond, i, e, r)) :
    cond.length + i.length + e.length + r.length + 8 ≤ s.length := by
  cases s with
  | nil => simp [tryMatchIf] at h
  | cons c1 tail =>
    cases tail with
    | nil => simp [tryMatchIf] at h
    | cons c2 r1 =>
      cases hlit : matchLit ifW (r1.dropWhile isWs) with
      | none => simp [tryMatchIf, hlit] at h
      | some r2 =>
        cases r2 with
        | nil => simp [tryMatchIf, hlit] at h
        | cons c r2t =>
          cases hsc : scanCond ((c :: r2t).dropWhile isWs) with
          | none => simp [tryMatchIf, hlit, hsc] at h
          | some p =>
            obtain ⟨cond0, r3⟩ := p
            cases hib : scanIfBody r3 with
            | none => simp [tryMatchIf, hlit, hsc, hib] at h
            | some q =>
              obtain ⟨i0, e0, r0⟩ := q
              simp only [tryMatchIf, hlit, hsc, hib] at h
              split at h
              · split at h
                · obtain ⟨rfl, rfl, rfl, rfl⟩ := h
                  have h1 := matchLit_len hlit
                  have h2 := scanCond_len hsc
                  have h3 := scanIfBody_len hib
                  have h4 := dropWhile_len isWs r1
                  have h5 := dropWhile_len isWs (c :: r2t)
                  simp only [List.length_cons] at *
                  simp only [ifW, List.length_cons, List.length_nil] at h1
                  omega
                · exact absurd h (by simp)
              · exact absurd h (by simp)

/-- The conditional stage: the global `template.replace` scan.  On a match
the whole span is replaced by the chosen branch (unrendered) and scanning
resumes after the match; otherwise one character is copied. -/
def handleConditionals (ctx : Context) (s : List Char) : List Char :=
  match h : tryMatchIf s with
  | some (cond, ifB, elseB, rest) =>
    (if evaluateCondition cond ctx then ifB else elseB) ++ handleConditionals ctx rest
  | none =>
    match s with
    | [] => []
    | c :: rest => c :: handleConditionals ctx rest
termination_by s.length
decreasing_by
  · have := tryMatchIf_len h
    omega
  · simp

theorem handleConditionals_eq_some {s cond ifB elseB rest : List Char} (ctx : Context)
    (h : tryMatchIf s = some (cond, ifB, elseB, rest)) :
    handleConditionals ctx s =
      (if evaluateCondition cond ctx then ifB else elseB) ++ handleConditionals ctx rest := by
  rw [handleConditionals]
  split
  · rename_i heq
    rw [h] at heq
    obtain ⟨rfl, rfl, rfl, rfl⟩ := heq
    rfl
  · rename_i heq
    rw [h] at heq
    simp at heq

theorem handleConditionals_nil (ctx : Context) : handleConditionals ctx [] = [] := by
  rw [handleConditionals]
  simp [tryMatchIf]

theorem handleConditionals_cons_none (ctx : Context) {c : Char} {rest : List Char}
    (h : tryMatchIf (c :: rest) = none) :
    handleConditionals ctx (c :: rest) = c :: handleConditionals ctx rest := by
  rw [handleConditionals]
  split
  · rename_i heq
    rw [h] at heq
    simp at heq
  · rfl

/-! ## Variable and filter stages -/

/-- One attempt of the variable regex `/{{(\s*[\w.]+\s*)}}/g`.  The
capture is `\s*[\w.]+\s*`; since the path has no whitespace,
`capture.trim()` is exactly the path, which is returned directly
together with the full matched text (needed verbatim on failed
resolution) and the remainder. -/
def tryMatchVar (s : List Char) : Option (List Char × List Char × List Char) :=
  match s with
  | c1 :: c2 :: r1 =>
    if c1 = '{' ∧ c2 = '{' then
      let wsA := r1.takeWhile isWs
      let r2 := r1.dropWhile isWs
      let path := r2.takeWhile isPathChar
      if path = [] then none
      else
        let r3 := r2.dropWhile isPathChar
        let wsB := r3.takeWhile isWs
        match r3.dropWhile isWs with
        | d1 :: d2 :: rest =>
          if d1 = '}' ∧ d2 = '}' then
            some ('{' :: '{' :: (wsA ++ path ++ wsB) ++ ['}', '}'], path, rest)
          else none
        | _ => none
    else none
  | _ => none

theorem tryMatchVar_len {s m p rest : List Char}
    (h : tryMatchVar s = some (m, p, rest)) : rest.length + 4 ≤ s.length := by
  cases s with
  | nil => simp [tryMatchVar] at h
  | cons c1 tail =>
    cases tail with
    | nil => simp [tryMatchVar] at h
    | cons c2 r1 =>
      simp only [tryMatchVar] at h
      split at h
      · split at h
        · exact absurd h (by simp)
        · split at h
          · split at h
            · obtain ⟨rfl, rfl, rfl⟩ := h
              rename_i heq
              have h1 := dropWhile_len isWs r1
              have h2 := dropWhile_len isPathChar (r1.dropWhile isWs)
              have h3 := dropWhile_len isWs ((r1.dropWhile isWs).dropWhile isPathChar)
              rw [heq] at h3
              simp only [List.length_cons] at *
              omega
            · exact absurd h (by simp)
          · exact absurd h (by simp)
      · exact absurd h (by simp)

/-- The variable-substitution stage: on a defined resolution substitute
the string coercion, otherwise keep the matched text verbatim. -/
def handleVariables (ctx : Context) (s : List Char) : List Char :=
  match h : tryMatchVar s with
  | some (mtext, path, rest) =>
    (match getNestedValue ctx path with
     | .undefined => mtext
     | v => jsString v) ++ handleVariables ctx rest
  | none =>
    match s with
    | [] => []
    | c :: rest => c :: handleVariables ctx rest
termination_by s.length
decreasing_by
  · have := tryMatchVar_len h
    omega
  · simp

theorem handleVariables_eq_some {s mtext path rest : List Char} (ctx : Context)
    (h : tryMatchVar s = some (mtext, path, rest)) :
    handleVariables ctx s =
      (match getNestedValue ctx path with
       | .undefined => mtext
       | v => jsString v) ++ handleVariables ctx rest := by
  rw [handleVariables]
  split
  · rename_i heq
    rw [h] at heq
    obtain ⟨rfl, rfl, rfl⟩ := heq
    rfl
  · rename_i heq
    rw [h] at heq
    simp at heq

theorem handleVariables_nil (ctx : Context) : handleVariables ctx [] = [] := by
  rw [handleVariables]
  simp [tryMatchVar]

theorem handleVariables_cons_none (ctx : Context) {c : Char} {rest : List Char}
    (h : tryMatchVar (c :: rest) = none) :
    handleVariables ctx (c :: rest) = c :: handleVariables ctx rest := by
  rw [handleVariables]
  split
  · rename_i heq
    rw [h] at heq
    simp at heq
  · rfl

/-- `filterStr.match(/(\w+)(?:\(([^)]*)\))?/)`: scan for the first `\w+`
run; the optional group contributes the argument text only when a
closing parenthesis exists, otherwise it is skipped and the arguments
stay undefined. -/
def parseFilter : List Char → Option (List Char × Option (List Char))
  | [] => none
  | c :: rest =>
    if isWordChar c then
      let name := (c :: rest).takeWhile isWordChar
      match (c :: rest).dropWhile isWordChar with
      | d :: r2 =>
        if d = '(' then
          let args := r2.takeWhile (fun x => x ≠ ')')
          if r2.drop args.length = [] then some (name, none)
          else some (name, some args)
        else some (name, none)
      | [] => some (name, none)
    else parseFilter rest

/-- `filterArgs?.match(/["']([^"']+)["']/)`: the first nonempty quoted
literal anywhere in the arguments (opening and closing quote may
differ). -/
def findQuoted : List Char → Option (List Char)
  | [] => none
  | c :: rest =>
    if isQuote c then
      let content := rest.takeWhile (fun x => !isQuote x)
      if content ≠ [] ∧ rest.drop content.length ≠ [] then some content
      else findQuoted rest
    else findQuoted rest

/-- The default-filter literal: the first quoted literal of the argument
text, or the empty string when the arguments are undefined or carry no
quoted literal (the source's `defaultMatch ? defaultMatch[1] : ''`). -/
def extractLit (args : Option (List Char)) : List Char :=
  match args with
  | none => []
  | some a => (findQuoted a).getD []

/-- `applyFilter(value, filterStr)` from the source.  Case mapping is
ASCII (`Char.toUpper`/`Char.toLower`); the engine's own logic never
depends on non-ASCII case behaviour. -/
def applyFilter (value : Value) (fs : List Char) : Value :=
  match parseFilter fs with
  | none => value
  | some (name, args) =>
    if name = "default".data then
      match value with
      | .undefined => .str (extractLit args)
      | .null => .str (extractLit args)
      | .str [] => .str (extractLit args)
      | _ => value
    else if name = "upper".data then .str ((jsString value).map Char.toUpper)
    else if name = "lower".data then .str ((jsString value).map Char.toLower)
    else if name = "capitalize".data then
      match jsString value with
      | [] => .str []
      | c :: cs => .str (Char.toUpper c :: cs.map Char.toLower)
    else if name = "length".data then
      match value with
      | .arr xs => .num xs.length
      | .str str => .num str.length
      | _ => .num 0
    else if name = "join".data then
      match value with
      | .arr xs =>
        let sep :=
          match args with
          | none => [',', ' ']
          | some a =>
            let stripped := a.filter (fun c => !isQuote c)
            if stripped = [] then [',', ' '] else stripped
        .str (joinWith sep xs)
      | _ => value
    else value

/-- One attempt of the filter regex
`/{{(\s*[\w.]+\s*\|\s*\w+(?:\([^)]*\))?)\s*}}/g`: returns
(matched text, capture group, remainder). -/
def tryMatchFilter (s : List Char) : Option (List Char × List Char × List Char) :=
  match s with
  | c1 :: c2 :: r1 =>
    if c1 = '{' ∧ c2 = '{' then
      let wsA := r1.takeWhile isWs
      let r2 := r1.dropWhile isWs
      let path := r2.takeWhile isPathChar
      if path = [] then none
      else
        let r3 := r2.dropWhile isPathChar
        let wsB := r3.takeWhile isWs
        match r3.dropWhile isWs with
        | b :: r4 =>
          if b = '|' then
            let wsC := r4.takeWhile isWs
            let r5 := r4.dropWhile isWs
            let name := r5.takeWhile isWordChar
            if name = [] then none
            else
              let parsed : Option (List Char × List Char) :=
                match r5.dropWhile isWordChar with
                | d :: r7 =>
                  if d = '(' then
                    let args := r7.takeWhile (fun x => x ≠ ')')
                    if r7.drop args.length = [] then none
                    else some ('(' :: args ++ [')'], r7.drop (args.length + 1))
                  else some ([], d :: r7)
                | [] => some ([], [])
              match parsed with
              | none => none
              | some (parenText, r8) =>
                let wsD := r8.takeWhile isWs
                match r8.dropWhile isWs with
                | e1 :: e2 :: rest =>
                  if e1 = '}' ∧ e2 = '}' then
                    let capture := wsA ++ path ++ wsB ++ '|' :: (wsC ++ name ++ parenText)
                    some ('{' :: '{' :: capture ++ wsD ++ ['}', '}'], capture, rest)
                  else none
                | _ => none
          else none
        | [] => none
    else none
  | _ => none

theorem handleConditionals_length (ctx : Context) (s : List Char) :
    (handleConditionals ctx s).length ≤ s.length := by
  have H : ∀ (n : Nat) (s : List Char), s.length ≤ n →
      (handleConditionals ctx s).length ≤ s.length := by
    intro n
    induction n with
    | zero =>
      intro s hs
      have : s = [] := List.length_eq_zero.mp (Nat.le_zero.mp hs)
      subst this
      simp [handleConditionals_nil]
    | succ n ih =>
      intro s hs
      cases h : tryMatchIf s with
      | some p =>
        obtain ⟨cond, ifB, elseB, rest⟩ := p
        rw [handleConditionals_eq_some ctx h]
        have hl := tryMatchIf_len h
        have hr := ih rest (by omega)
        simp only [List.length_append]
        split <;> omega
      | none =>
        cases s with
        | nil => simp [handleConditionals_nil]
        | cons c rest =>
          rw [handleConditionals_cons_none ctx h]
          have hr := ih rest (by simp only [List.length_cons] at hs; omega)
          simp only [List.length_cons]
          omega
  exact H s.length s le_rfl

theorem drop_len_le (n : Nat) (s : List Char) : (s.drop n).length ≤ s.length := by
  simp only [List.length_drop]
  omega

theorem tryMatchFilter_len {s m cap rest : List Char}
    (h : tryMatchFilter s = some (m, cap, rest)) : rest.length + 4 ≤ s.length := by
  cases s with
  | nil => simp [tryMatchFilter] at h
  | cons c1 tail =>
    cases tail with
    | nil => simp [tryMatchFilter] at h
    | cons c2 r1 =>
      have hr2 := dropWhile_len isWs r1
      have hr3 := dropWhile_len isPathChar (r1.dropWhile isWs)
      simp only [tryMatchFilter] at h
      split at h
      · split at h
        · exact absurd h (by simp)
        · split at h
          · rename_i b r4 heqB
            have hr4 : r4.length + 1 ≤ ((r1.dropWhile isWs).dropWhile isPathChar).length := by
              have := dropWhile_len isWs ((r1.dropWhile isWs).dropWhile isPathChar)
              rw [heqB] at this
              simp only [List.length_cons] at this
              omega
            split at h
            · split at h
              · exact absurd h (by simp)
              · have hr5 := dropWhile_len isWs r4
                split at h
                · exact absurd h (by simp)
                · rename_i pr parenText r8 heqP
                  have hr8 : r8.length ≤ (r4.dropWhile isWs).length := by
                    have hr6 := dropWhile_len isWordChar (r4.dropWhile isWs)
                    split at heqP
                    · rename_i d r7 heqI
                      have hr7 : r7.length + 1 ≤ ((r4.dropWhile isWs).dropWhile isWordChar).length := by
                        rw [heqI]
                        simp
                      split at heqP
                      · split at heqP
                        · exact absurd heqP (by simp)
                        · obtain ⟨-, rfl⟩ := heqP
                          have := drop_len_le ((r7.takeWhile (fun x => x ≠ ')')).length + 1) r7
                          omega
                      · obtain ⟨-, rfl⟩ := heqP
                        rw [← heqI]
                        omega
                    · obtain ⟨-, rfl⟩ := heqP
                      simp
                  split at h
                  · rename_i e1 e2 rest0 heqE
                    split at h
                    · obtain ⟨rfl, rfl, rfl⟩ := h
                      have hrE := dropWhile_len isWs r8
                      rw [heqE] at hrE
                      simp only [List.length_cons] at hrE
                      simp only [List.length_cons]
                      omega
                    · exact absurd h (by simp)
                  · exact absurd h (by simp)
            · exact absurd h (by simp)
          · exact absurd h (by simp)
      · exact absurd h (by simp)

/-- The filter stage.  The capture is split on every `|`, each piece is
trimmed, the head is the variable path, the remaining pieces re-joined
with `|` form the filter expression (`filterParts.join('|')`), and an
undefined final value keeps the matched text verbatim. -/
def handleFilters (ctx : Context) (s : List Char) : List Char :=
  match h : tryMatchFilter s with
  | some (mtext, capture, rest) =>
    (match (splitOnCh '|' capture).map trimWs with
     | [] => mtext
     | vpath :: fps =>
       let value :=
         if fps.isEmpty then getNestedValue ctx vpath
         else applyFilter (getNestedValue ctx vpath) (joinBar fps)
       match value with
       | .undefined => mtext
       | v => jsString v) ++ handleFilters ctx rest
  | none =>
    match s with
    | [] => []
    | c :: rest => c :: handleFilters ctx rest
termination_by s.length
decreasing_by
  · have := tryMatchFilter_len h
    omega
  · simp

theorem handleFilters_eq_some {s mtext capture rest : List Char} (ctx : Context)
    (h : tryMatchFilter s = some (mtext, capture, rest)) :
    handleFilters ctx s =
      (match (splitOnCh '|' capture).map trimWs with
       | [] => mtext
       | vpath :: fps =>
         match (if fps.isEmpty then getNestedValue ctx vpath
                else applyFilter (getNestedValue ctx vpath) (joinBar fps)) with
         | .undefined => mtext
         | v => jsString v) ++ handleFilters ctx rest := by
  rw [handleFilters]
  split
  · rename_i heq
    rw [h] at heq
    obtain ⟨rfl, rfl, rfl⟩ := heq
    rfl
  · rename_i heq
    rw [h] at heq
    simp at heq

theorem handleFilters_nil (ctx : Context) : handleFilters ctx [] = [] := by
  rw [handleFilters]
  simp [tryMatchFilter]

theorem handleFilters_cons_none (ctx : Context) {c : Char} {rest : List Char}
    (h : tryMatchFilter (c :: rest) = none) :
    handleFilters ctx (c :: rest) = c :: handleFilters ctx rest := by
  rw [handleFilters]
  split
  · rename_i heq
    rw [h] at heq
    simp at heq
  · rfl

/-! ## The loop stage and the render pipeline -/

/-- Head-is-whitespace test: the mandatory first character of a `\\s+`. -/
def headWs : List Char → Bool
  | [] => false
  | c :: _ => isWs c

/-- One attempt of the loop regex
`/{%\s*for\s+(\w+)\s+in\s+(\w+)\s*%}(.*?){%\s*endfor\s*%}/gs`:
returns (item name, list name, loop body, remainder). -/
def tryMatchFor (s : List Char) : Option (List Char × List Char × List Char × List Char) :=
  match s with
  | c1 :: c2 :: r1 =>
    if c1 = '{' ∧ c2 = '%' then
      match matchLit forW (r1.dropWhile isWs) with
      | some r2 =>
        if headWs r2 then
          let r3 := r2.dropWhile isWs
          let item := r3.takeWhile isWordChar
          if item = [] then none
          else
            let r4 := r3.dropWhile isWordChar
            if headWs r4 then
              match matchLit inW (r4.dropWhile isWs) with
              | some r5 =>
                if headWs r5 then
                  let r6 := r5.dropWhile isWs
                  let listName := r6.takeWhile isWordChar
                  if listName = [] then none
                  else
                    match matchWsClose (r6.dropWhile isWordChar) with
                    | some r7 =>
                      match scanUntilTag endforW r7 with
                      | some (body, rest) => some (item, listName, body, rest)
                      | none => none
                    | none => none
                else none
              | none => none
            else none
        else none
      | none => none
    else none
  | _ => none

theorem tryMatchFor_len {s item listName body rest : List Char}
    (h : tryMatchFor s = some (item, listName, body, rest)) :
    body.length + rest.length + 9 ≤ s.length := by
  cases s with
  | nil => simp [tryMatchFor] at h
  | cons c1 tail =>
    cases tail with
    | nil => simp [tryMatchFor] at h
    | cons c2 r1 =>
      have hA := dropWhile_len isWs r1
      simp only [tryMatchFor] at h
      split at h
      · cases hfor : matchLit forW (r1.dropWhile isWs) with
        | none => simp [hfor] at h
        | some r2 =>
          simp only [hfor] at h
          have hB := matchLit_len hfor
          split at h
          · have hC := dropWhile_len isWs r2
            split at h
            · exact absurd h (by simp)
            · have hD := dropWhile_len isWordChar (r2.dropWhile isWs)
              split at h
              · cases hin : matchLit inW (((r2.dropWhile isWs).dropWhile isWordChar).dropWhile isWs) with
                | none => simp [hin] at h
                | some r5 =>
                  simp only [hin] at h
                  have hE := matchLit_len hin
                  have hF := dropWhile_len isWs ((r2.dropWhile isWs).dropWhile isWordChar)
                  split at h
                  · have hG := dropWhile_len isWs r5
                    split at h
                    · exact absurd h (by simp)
                    · have hH := dropWhile_len isWordChar (r5.dropWhile isWs)
                      cases hcl : matchWsClose ((r5.dropWhile isWs).dropWhile isWordChar) with
                      | none => simp [hcl] at h
                      | some r7 =>
                        simp only [hcl] at h
                        have hI := matchWsClose_len hcl
                        cases hun : scanUntilTag endforW r7 with
                        | none => simp [hun] at h
                        | some p =>
                          obtain ⟨body0, rest0⟩ := p
                          simp only [hun] at h
                          obtain ⟨rfl, rfl, rfl, rfl⟩ := h
                          have hJ := scanUntilTag_len hun
                          simp only [forW, inW, List.length_cons, List.length_nil] at hB hE
                          simp only [List.length_cons]
                          omega
                  · exact absurd h (by simp)
              · exact absurd h (by simp)
          · exact absurd h (by simp)
      · exact absurd h (by simp)

mutual

/-- `renderTemplate` from the source: empty template short-circuits to
the empty string, otherwise the four stages run in pipeline order
(conditionals, loops, variables, filters). -/
def renderTemplate (t : List Char) (ctx : Context) : List Char :=
  if t = [] then []
  else
    handleFilters ctx (handleVariables ctx (handleForLoops ctx (handleConditionals ctx t)))
termination_by (t.length, 2)
decreasing_by
  have hc := handleConditionals_length ctx t
  rcases Nat.lt_or_ge (handleConditionals ctx t).length t.length with hlt | hge
  · exact Prod.Lex.left _ _ hlt
  · have heq : (handleConditionals ctx t).length = t.length := le_antisymm hc hge
    rw [heq]
    exact Prod.Lex.right _ (by omega)

/-- The loop stage's global replace scan: on a match, a non-array loop
target contributes the empty string, an array contributes one full
recursive rendering of the body per element, concatenated by
`.join('')`. -/
def handleForLoops (ctx : Context) (s : List Char) : List Char :=
  match h : tryMatchFor s with
  | some (item, listName, body, rest) =>
    (match getKey ctx listName with
     | .arr items => renderEach body ctx item items
     | _ => []) ++ handleForLoops ctx rest
  | none =>
    match s with
    | [] => []
    | c :: rest => c :: handleForLoops ctx rest
termination_by (s.length, 1)
decreasing_by
  · have := tryMatchFor_len h
    exact Prod.Lex.left _ _ (by omega)
  · have := tryMatchFor_len h
    exact Prod.Lex.left _ _ (by omega)
  · exact Prod.Lex.left _ _ (by simp)

/-- `items.map((item) => renderTemplate(loopBody, {...context, [itemName]:
item})).join('')`: each iteration renders against a fresh derived
context built from the parent. -/
def renderEach (body : List Char) (ctx : Context) (item : List Char) : List Value → List Char
  | [] => []
  | v :: vs => renderTemplate body (ctxInsert ctx item v) ++ renderEach body ctx item vs
termination_by vs => (body.length + 1, vs.length)
decreasing_by
  · exact Prod.Lex.left _ _ (by omega)
  · exact Prod.Lex.right _ (by simp)

end

theorem renderTemplate_eq (t : List Char) (ctx : Context) :
    renderTemplate t ctx =
      if t = [] then []
      else
        handleFilters ctx (handleVariables ctx
          (handleForLoops ctx (handleConditionals ctx t))) := by
  rw [renderTemplate]

theorem handleForLoops_eq_some {s item listName body rest : List Char} (ctx : Context)
    (h : tryMatchFor s = some (item, listName, body, rest)) :
    handleForLoops ctx s =
      (match getKey ctx listName with
       | .arr items => renderEach body ctx item items
       | _ => []) ++ handleForLoops ctx rest := by
  rw [handleForLoops]
  split
  · rename_i heq
    rw [h] at heq
    obtain ⟨rfl, rfl, rfl, rfl⟩ := heq
    rfl
  · rename_i heq
    rw [h] at heq
    simp at heq

theorem handleForLoops_nil (ctx : Context) : handleForLoops ctx [] = [] := by
  rw [handleForLoops]
  simp [tryMatchFor]

theorem handleForLoops_cons_none (ctx : Context) {c : Char} {rest : List Char}
    (h : tryMatchFor (c :: rest) = none) :
    handleForLoops ctx (c :: rest) = c :: handleForLoops ctx rest := by
  rw [handleForLoops]
  split
  · rename_i heq
    rw [h] at heq
    simp at heq
  · rfl

theorem renderEach_nil (body : List Char) (ctx : Context) (item : List Char) :
    renderEach body ctx item [] = [] := by
  rw [renderEach]

theorem renderEach_cons (body : List Char) (ctx : Context) (item : List Char)
    (v : Value) (vs : List Value) :
    renderEach body ctx item (v :: vs) =
      renderTemplate body (ctxInsert ctx item v) ++ renderEach body ctx item vs := by
  rw [renderEach]

/-! ## escapeTemplate and hasTemplateSyntax -/

/-- One global literal replace of the two-character pattern `p1 p2`:
the `str.replace(/../g, rep)` scan — leftmost, non-overlapping, the
replacement text is not rescanned. -/
def replacePair (p1 p2 : Char) (rep : List Char) : List Char → List Char
  | [] => []
  | [c] => [c]
  | c1 :: c2 :: rest =>
    if c1 = p1 ∧ c2 = p2 then rep ++ replacePair p1 p2 rep rest
    else c1 :: replacePair p1 p2 rep (c2 :: rest)

/-- `escapeTemplate` from the source: the four chained global replaces,
in source order `{{`, `}}`, `{%`, `%}`, each inserting a backslash
before both characters of the pair. -/
def escapeTemplate (s : List Char) : List Char :=
  replacePair '%' '}' ['\\', '%', '\\', '}']
    (replacePair '{' '%' ['\\', '{', '\\', '%']
      (replacePair '}' '}' ['\\', '}', '\\', '}']
        (replacePair '{' '{' ['\\', '{', '\\', '{'] s)))

/-- Search for the two-character closing sequence reachable by `.*?`
without the `s` flag: the skipped characters may not be line
terminators. -/
def findClose2 (d1 d2 : Char) : List Char → Bool
  | [] => false
  | [_] => false
  | c1 :: c2 :: rest =>
    (c1 = d1 && c2 = d2) || (!isLineTerm c1 && findClose2 d1 d2 (c2 :: rest))

/-- `hasTemplateSyntax`: the test `/{{.*?}}|{%.*?%}/.test(str)` — some
position starts `{{` (resp. `{%`) and a later `}}` (resp. `%}`) is
reachable without crossing a line terminator. -/
def hasTemplateSyntax : List Char → Bool
  | [] => false
  | [_] => false
  | c1 :: c2 :: rest =>
    ((c1 = '{' && c2 = '{') && findClose2 '}' '}' rest) ||
    ((c1 = '{' && c2 = '%') && findClose2 '%' '}' rest) ||
    hasTemplateSyntax (c2 :: rest)

/-- Unconditional one-step unfolding of the conditional stage, used to
evaluate concrete templates. -/
theorem handleConditionals_step (ctx : Context) (s : List Char) :
    handleConditionals ctx s =
      match tryMatchIf s with
      | some (cond, ifB, elseB, rest) =>
        (if evaluateCondition cond ctx then ifB else elseB) ++ handleConditionals ctx rest
      | none =>
        match s with
        | [] => []
        | c :: rest => c :: handleConditionals ctx rest := by
  cases h : tryMatchIf s with
  | some p =>
    obtain ⟨cond, ifB, elseB, rest⟩ := p
    rw [handleConditionals_eq_some ctx h]
  | none =>
    cases s with
    | nil => rw [handleConditionals_nil]
    | cons c rest => rw [handleConditionals_cons_none ctx h]

/-- Unconditional one-step unfolding of the variable stage. -/
theorem handleVariables_step (ctx : Context) (s : List Char) :
    handleVariables ctx s =
      match tryMatchVar s with
      | some (mtext, path, rest) =>
        (match getNestedValue ctx path with
         | .undefined => mtext
         | v => jsString v) ++ handleVariables ctx rest
      | none =>
        match s with
        | [] => []
        | c :: rest => c :: handleVariables ctx rest := by
  cases h : tryMatchVar s with
  | some p =>
    obtain ⟨mtext, path, rest⟩ := p
    rw [handleVariables_eq_some ctx h]
  | none =>
    cases s with
    | nil => rw [handleVariables_nil]
    | cons c rest => rw [handleVariables_cons_none ctx h]

/-- Unconditional one-step unfolding of the filter stage. -/
theorem handleFilters_step (ctx : Context) (s : List Char) :
    handleFilters ctx s =
      match tryMatchFilter s with
      | some (mtext, capture, rest) =>
        (match (splitOnCh '|' capture).map trimWs with
         | [] => mtext
         | vpath :: fps =>
           match (if fps.isEmpty then getNestedValue ctx vpath
                  else applyFilter (getNestedValue ctx vpath) (joinBar fps)) with
           | .undefined => mtext
           | v => jsString v) ++ handleFilters ctx rest
      | none =>
        match s with
        | [] => []
        | c :: rest => c :: handleFilters ctx rest := by
  cases h : tryMatchFilter s with
  | some p =>
    obtain ⟨mtext, capture, rest⟩ := p
    rw [handleFilters_eq_some ctx h]
  | none =>
    cases s with
    | nil => rw [handleFilters_nil]
    | cons c rest => rw [handleFilters_cons_none ctx h]

/-- Unconditional one-step unfolding of the loop stage. -/
theorem handleForLoops_step (ctx : Context) (s : List Char) :
    handleForLoops ctx s =
      match tryMatchFor s with
      | some (item, listName, body, rest) =>
        (match getKey ctx listName with
         | .arr items => renderEach body ctx item items
         | _ => []) ++ handleForLoops ctx rest
      | none =>
        match s with
        | [] => []
        | c :: rest => c :: handleForLoops ctx rest := by
  cases h : tryMatchFor s with
  | some p =>
    obtain ⟨item, listName, body, rest⟩ := p
    rw [handleForLoops_eq_some ctx h]
  | none =>
    cases s with
    | nil => rw [handleForLoops_nil]
    | cons c rest => rw [handleForLoops_cons_none ctx h]

/-! ## No-match and identity lemmas -/

theorem tryMatchIf_none_of (a b : Char) (r : List Char) (h : ¬(a = '{' ∧ b = '%')) :
    tryMatchIf (a :: b :: r) = none := by
  simp only [tryMatchIf, if_neg h]

theorem tryMatchFor_none_of (a b : Char) (r : List Char) (h : ¬(a = '{' ∧ b = '%')) :
    tryMatchFor (a :: b :: r) = none := by
  simp only [tryMatchFor, if_neg h]

theorem tryMatchVar_none_of (a b : Char) (r : List Char) (h : ¬(a = '{' ∧ b = '{')) :
    tryMatchVar (a :: b :: r) = none := by
  simp only [tryMatchVar, if_neg h]

theorem tryMatchFilter_none_of (a b : Char) (r : List Char) (h : ¬(a = '{' ∧ b = '{')) :
    tryMatchFilter (a :: b :: r) = none := by
  simp only [tryMatchFilter, if_neg h]

theorem hasPair_cons_false {p q a b : Char} {r : List Char}
    (h : hasPair p q (a :: b :: r) = false) :
    ¬(a = p ∧ b = q) ∧ hasPair p q (b :: r) = false := by
  simp only [hasPair, Bool.or_eq_false_iff, Bool.and_eq_false_iff] at h
  obtain ⟨h1, h2⟩ := h
  refine ⟨?_, h2⟩
  rintro ⟨rfl, rfl⟩
  simp at h1

theorem hasPair_tail {p q a : Char} {r : List Char}
    (h : hasPair p q (a :: r) = false) : hasPair p q r = false := by
  cases r with
  | nil => simp [hasPair]
  | cons b t => exact (hasPair_cons_false h).2

theorem handleConditionals_id (ctx : Context) : ∀ s : List Char,
    hasPair '{' '%' s = false → handleConditionals ctx s = s := by
  intro s
  induction s with
  | nil => intro _; exact handleConditionals_nil ctx
  | cons c rest ih =>
    intro h
    have hnone : tryMatchIf (c :: rest) = none := by
      cases rest with
      | nil => simp [tryMatchIf]
      | cons d r => exact tryMatchIf_none_of _ _ _ (hasPair_cons_false h).1
    rw [handleConditionals_cons_none ctx hnone]
    rw [ih (hasPair_tail h)]

theorem handleForLoops_id (ctx : Context) : ∀ s : List Char,
    hasPair '{' '%' s = false → handleForLoops ctx s = s := by
  intro s
  induction s with
  | nil => intro _; exact handleForLoops_nil ctx
  | cons c rest ih =>
    intro h
    have hnone : tryMatchFor (c :: rest) = none := by
      cases rest with
      | nil => simp [tryMatchFor]
      | cons d r => exact tryMatchFor_none_of _ _ _ (hasPair_cons_false h).1
    rw [handleForLoops_cons_none ctx hnone]
    rw [ih (hasPair_tail h)]

theorem handleVariables_id (ctx : Context) : ∀ s : List Char,
    hasPair '{' '{' s = false → handleVariables ctx s = s := by
  intro s
  induction s with
  | nil => intro _; exact handleVariables_nil ctx
  | cons c rest ih =>
    intro h
    have hnone : tryMatchVar (c :: rest) = none := by
      cases rest with
      | nil => simp [tryMatchVar]
      | cons d r => exact tryMatchVar_none_of _ _ _ (hasPair_cons_false h).1
    rw [handleVariables_cons_none ctx hnone]
    rw [ih (hasPair_tail h)]

theorem handleFilters_id (ctx : Context) : ∀ s : List Char,
    hasPair '{' '{' s = false → handleFilters ctx s = s := by
  intro s
  induction s with
  | nil => intro _; exact handleFilters_nil ctx
  | cons c rest ih =>
    intro h
    have hnone : tryMatchFilter (c :: rest) = none := by
      cases rest with
      | nil => simp [tryMatchFilter]
      | cons d r => exact tryMatchFilter_none_of _ _ _ (hasPair_cons_false h).1
    rw [handleFilters_cons_none ctx hnone]
    rw [ih (hasPair_tail h)]

/-- Rendering a string free of `\x7b\x7b` and `\x7b%` markers changes
nothing: no stage's regex can match anywhere. -/
theorem renderTemplate_plain (t : List Char) (ctx : Context)
    (h1 : hasPair '{' '{' t = false) (h2 : hasPair '{' '%' t = false) :
    renderTemplate t ctx = t := by
  rw [renderTemplate_eq]
  split
  · rename_i ht
    exact ht.symm
  · rw [handleConditionals_id ctx t h2, handleForLoops_id ctx t h2,
      handleVariables_id ctx t h1, handleFilters_id ctx t h1]

/-! ## Scan-prefix (copy) lemmas: no match can start inside `pre` -/

theorem pair_head_safe {p2 : Char} {c : Char} {pre s : List Char}
    (h : hasPair '{' p2 (c :: (pre ++ s.take 1)) = false) :
    ∀ d t, pre ++ s = d :: t → ¬(c = '{' ∧ d = p2) := by
  intro d t heq hc
  obtain ⟨rfl, rfl⟩ := hc
  cases pre with
  | nil =>
    cases s with
    | nil => simp at heq
    | cons x xs =>
      simp only [List.nil_append] at heq
      cases heq
      simp [hasPair, List.take] at h
  | cons e pre' =>
    simp only [List.cons_append] at heq
    cases heq
    exact absurd ((hasPair_cons_false h).1) (by simp)

theorem handleConditionals_copy (ctx : Context) : ∀ pre s : List Char,
    hasPair '{' '%' (pre ++ s.take 1) = false →
    handleConditionals ctx (pre ++ s) = pre ++ handleConditionals ctx s := by
  intro pre
  induction pre with
  | nil => intro s _; rfl
  | cons c pre' ih =>
    intro s h
    have hnone : tryMatchIf (c :: (pre' ++ s)) = none := by
      cases hcs : pre' ++ s with
      | nil => simp [tryMatchIf]
      | cons d t =>
        exact tryMatchIf_none_of _ _ _
          (pair_head_safe (by simpa using h) d t hcs)
    rw [List.cons_append, handleConditionals_cons_none ctx hnone, ih s (hasPair_tail h)]
    rfl

theorem handleForLoops_copy (ctx : Context) : ∀ pre s : List Char,
    hasPair '{' '%' (pre ++ s.take 1) = false →
    handleForLoops ctx (pre ++ s) = pre ++ handleForLoops ctx s := by
  intro pre
  induction pre with
  | nil => intro s _; rfl
  | cons c pre' ih =>
    intro s h
    have hnone : tryMatchFor (c :: (pre' ++ s)) = none := by
      cases hcs : pre' ++ s with
      | nil => simp [tryMatchFor]
      | cons d t =>
        exact tryMatchFor_none_of _ _ _
          (pair_head_safe (by simpa using h) d t hcs)
    rw [List.cons_append, handleForLoops_cons_none ctx hnone, ih s (hasPair_tail h)]
    rfl

theorem handleVariables_copy (ctx : Context) : ∀ pre s : List Char,
    hasPair '{' '{' (pre ++ s.take 1) = false →
    handleVariables ctx (pre ++ s) = pre ++ handleVariables ctx s := by
  intro pre
  induction pre with
  | nil => intro s _; rfl
  | cons c pre' ih =>
    intro s h
    have hnone : tryMatchVar (c :: (pre' ++ s)) = none := by
      cases hcs : pre' ++ s with
      | nil => simp [tryMatchVar]
      | cons d t =>
        exact tryMatchVar_none_of _ _ _
          (pair_head_safe (by simpa using h) d t hcs)
    rw [List.cons_append, handleVariables_cons_none ctx hnone, ih s (hasPair_tail h)]
    rfl

theorem handleFilters_copy (ctx : Context) : ∀ pre s : List Char,
    hasPair '{' '{' (pre ++ s.take 1) = false →
    handleFilters ctx (pre ++ s) = pre ++ handleFilters ctx s := by
  intro pre
  induction pre with
  | nil => intro s _; rfl
  | cons c pre' ih =>
    intro s h
    have hnone : tryMatchFilter (c :: (pre' ++ s)) = none := by
      cases hcs : pre' ++ s with
      | nil => simp [tryMatchFilter]
      | cons d t =>
        exact tryMatchFilter_none_of _ _ _
          (pair_head_safe (by simpa using h) d t hcs)
    rw [List.cons_append, handleFilters_cons_none ctx hnone, ih s (hasPair_tail h)]
    rfl

/-! ## Character-class facts and takeWhile/dropWhile helpers -/

theorem wordChar_toNat {c : Char} (h : isWordChar c = true) :
    (97 ≤ c.toNat ∧ c.toNat ≤ 122) ∨ (65 ≤ c.toNat ∧ c.toNat ≤ 90) ∨
    (48 ≤ c.toNat ∧ c.toNat ≤ 57) ∨ c.toNat = 95 := by
  simp only [isWordChar, Bool.or_eq_true, Bool.and_eq_true, decide_eq_true_eq] at h
  rcases h with ((h1 | h1) | h1) | h1
  · exact Or.inl ⟨h1.1, h1.2⟩
  · exact Or.inr (Or.inl ⟨h1.1, h1.2⟩)
  · exact Or.inr (Or.inr (Or.inl ⟨h1.1, h1.2⟩))
  · subst h1; simp

theorem isWs_iff_toNat {c : Char} : isWs c = true ↔
    (c.toNat = 9 ∨ c.toNat = 10 ∨ c.toNat = 11 ∨ c.toNat = 12 ∨ c.toNat = 13 ∨
     c.toNat = 32 ∨ c.toNat = 0xa0 ∨ c.toNat = 0x1680 ∨
     (0x2000 ≤ c.toNat ∧ c.toNat ≤ 0x200a) ∨ c.toNat = 0x2028 ∨ c.toNat = 0x2029 ∨
     c.toNat = 0x202f ∨ c.toNat = 0x205f ∨ c.toNat = 0x3000 ∨ c.toNat = 0xfeff) := by
  simp only [isWs, Bool.or_eq_true, Bool.and_eq_true, decide_eq_true_eq]
  tauto

theorem wordChar_not_ws {c : Char} (h : isWordChar c = true) : isWs c = false := by
  have hn := wordChar_toNat h
  rcases hb : isWs c with _ | _
  · rfl
  · have := isWs_iff_toNat.mp hb
    omega

theorem pathChar_not_ws {c : Char} (h : isPathChar c = true) : isWs c = false := by
  simp only [isPathChar, Bool.or_eq_true, decide_eq_true_eq] at h
  rcases h with h | h
  · exact wordChar_not_ws h
  · subst h
    rcases hb : isWs ('.' : Char) with _ | _
    · rfl
    · have := isWs_iff_toNat.mp hb
      simp at this

theorem takeWhile_append_stop (p : Char → Bool) : ∀ (w : List Char) (c : Char) (t : List Char),
    w.all p = true → p c = false → ((w ++ c :: t).takeWhile p) = w := by
  intro w
  induction w with
  | nil =>
    intro c t _ hc
    simp [List.takeWhile_cons, hc]
  | cons a w' ih =>
    intro c t hw hc
    simp only [List.all_cons, Bool.and_eq_true] at hw
    simp only [List.cons_append, List.takeWhile_cons, hw.1, if_true]
    rw [ih c t hw.2 hc]

theorem dropWhile_append_stop (p : Char → Bool) : ∀ (w : List Char) (c : Char) (t : List Char),
    w.all p = true → p c = false → ((w ++ c :: t).dropWhile p) = c :: t := by
  intro w
  induction w with
  | nil =>
    intro c t _ hc
    simp [List.dropWhile_cons, hc]
  | cons a w' ih =>
    intro c t hw hc
    simp only [List.all_cons, Bool.and_eq_true] at hw
    simp only [List.cons_append, List.dropWhile_cons, hw.1, if_true]
    exact ih c t hw.2 hc

theorem dropWhile_cons_neg (p : Char → Bool) (c : Char) (t : List Char) (hc : p c = false) :
    (c :: t).dropWhile p = c :: t := by
  simp [List.dropWhile_cons, hc]

theorem matchLit_self : ∀ (w t : List Char), matchLit w (w ++ t) = some t := by
  intro w
  induction w with
  | nil => intro t; simp [matchLit]
  | cons a w' ih =>
    intro t
    simp only [List.cons_append, matchLit, if_pos rfl]
    exact ih t

/-! ## Canonically spaced constructs and exact-match lemmas -/

/-- An if-tag with canonical spacing, `\x7b% if cond %\x7d`. -/
def ifTagL (cond : List Char) : List Char :=
  '{' :: '%' :: ' ' :: 'i' :: 'f' :: ' ' :: (cond ++ [' ', '%', '}'])

/-- The else-tag `\x7b% else %\x7d`. -/
def elseTagL : List Char := '{' :: '%' :: ' ' :: (elseW ++ [' ', '%', '}'])

/-- The endif-tag `\x7b% endif %\x7d`. -/
def endifTagL : List Char := '{' :: '%' :: ' ' :: (endifW ++ [' ', '%', '}'])

/-- A for-tag with canonical spacing, `\x7b% for item in list %\x7d`. -/
def forTagL (item listName : List Char) : List Char :=
  '{' :: '%' :: ' ' :: 'f' :: 'o' :: 'r' :: ' ' ::
    (item ++ ' ' :: 'i' :: 'n' :: ' ' :: (listName ++ [' ', '%', '}']))

/-- The endfor-tag `\x7b% endfor %\x7d`. -/
def endforTagL : List Char := '{' :: '%' :: ' ' :: (endforW ++ [' ', '%', '}'])

/-- A plain placeholder `\x7b\x7bpath\x7d\x7d`. -/
def varTagL (path : List Char) : List Char := '{' :: '{' :: (path ++ ['}', '}'])

/-- Whether the last character is not whitespace (false for empty). -/
def lastNotWs : List Char → Bool
  | [] => false
  | [c] => !isWs c
  | _ :: c :: rest => lastNotWs (c :: rest)

/-- Well-formed condition text for the canonical spacing: nonempty, no
`%`, and no whitespace at either end (so the regex captures exactly it). -/
def condOk : List Char → Bool
  | [] => false
  | c :: rest => !isWs c && lastNotWs (c :: rest) && (c :: rest).all (fun d => !(d = '%'))

/-- A nonempty identifier made of `\w` characters. -/
def wordOk (w : List Char) : Bool := !w.isEmpty && w.all isWordChar

/-- A nonempty dotted path made of `[\w.]` characters. -/
def pathOk (p : List Char) : Bool := !p.isEmpty && p.all isPathChar

theorem isWs_space : isWs ' ' = true := by decide

theorem matchWsClose_space (rest : List Char) :
    matchWsClose (' ' :: '%' :: '}' :: rest) = some rest := by
  simp [matchWsClose, isWs]

theorem matchWsClose_none_mid : ∀ (mid : List Char) (rest : List Char), mid ≠ [] →
    mid.all (fun d => !(d = '%')) = true → lastNotWs mid = true →
    matchWsClose (mid ++ ' ' :: '%' :: '}' :: rest) = none := by
  intro mid
  induction mid with
  | nil => intro rest h; exact absurd rfl h
  | cons m mid' ih =>
    intro rest _ hall hlast
    simp only [List.all_cons, Bool.and_eq_true, Bool.not_eq_true',
      decide_eq_false_iff_not] at hall
    cases mid' with
    | nil =>
      have hm : isWs m = false := by simpa [lastNotWs] using hlast
      simp only [List.nil_append, List.cons_append, matchWsClose]
      rw [if_neg (by simp), if_neg (by simp [hm])]
    | cons m2 mid'' =>
      have hlast' : lastNotWs (m2 :: mid'') = true := by simpa [lastNotWs] using hlast
      simp only [List.cons_append, matchWsClose]
      rw [if_neg (by rintro ⟨rfl, -⟩; exact hall.1 rfl)]
      by_cases hm : isWs m
      · rw [if_pos hm]
        exact ih rest (by simp) (by simpa using hall.2) hlast'
      · rw [if_neg hm]

theorem scanCond_exact_aux : ∀ (cond : List Char) (rest : List Char), cond ≠ [] →
    cond.all (fun d => !(d = '%')) = true → lastNotWs cond = true →
    scanCond (cond ++ ' ' :: '%' :: '}' :: rest) = some (cond, rest) := by
  intro cond
  induction cond with
  | nil => intro rest h; exact absurd rfl h
  | cons c cs ih =>
    intro rest _ hall hlast
    have hclose := matchWsClose_none_mid (c :: cs) rest (by simp) hall hlast
    simp only [List.cons_append] at hclose ⊢
    rw [scanCond.eq_def]
    simp only [hclose]
    cases cs with
    | nil =>
      simp only [List.nil_append]
      rw [scanCond.eq_def]
      simp only [matchWsClose_space]
    | cons c1 cs' =>
      have hall' : ((c1 :: cs').all fun d => !(d = '%')) = true := by
        simp only [List.all_cons, Bool.and_eq_true] at hall
        simpa using hall.2
      have hlast' : lastNotWs (c1 :: cs') = true := by simpa [lastNotWs] using hlast
      have hih := ih rest (by simp) hall' hlast'
      split
      · rename_i cond r heq
        rw [hih] at heq
        obtain ⟨rfl, rfl⟩ := heq
        rfl
      · rename_i heq
        rw [hih] at heq
        simp at heq

theorem condOk_parts {cond : List Char} (h : condOk cond = true) :
    ∃ c0 r0, cond = c0 :: r0 ∧ isWs c0 = false ∧
      lastNotWs cond = true ∧ cond.all (fun d => !(d = '%')) = true := by
  cases cond with
  | nil => simp [condOk] at h
  | cons c rest =>
    simp only [condOk, Bool.and_eq_true, Bool.not_eq_true'] at h
    exact ⟨c, rest, rfl, h.1.1, h.1.2, h.2⟩

theorem scanCond_exact {cond : List Char} (h : condOk cond = true) (rest : List Char) :
    scanCond (cond ++ ' ' :: '%' :: '}' :: rest) = some (cond, rest) := by
  obtain ⟨c0, r0, heq, -, hlast, hall⟩ := condOk_parts h
  exact scanCond_exact_aux cond rest (by rw [heq]; simp) hall hlast

theorem matchTag_none_of (w : List Char) (c1 c2 : Char) (r : List Char)
    (h : ¬(c1 = '{' ∧ c2 = '%')) : matchTag w (c1 :: c2 :: r) = none := by
  simp only [matchTag, if_neg h]

theorem matchTag_at (w : List Char) (w0 : Char) (w' : List Char) (hw : w = w0 :: w')
    (hw0 : isWs w0 = false) (rest : List Char) :
    matchTag w ('{' :: '%' :: ' ' :: (w ++ ' ' :: '%' :: '}' :: rest)) = some rest := by
  simp only [matchTag]
  rw [if_pos (by trivial)]
  rw [List.dropWhile_cons, if_pos isWs_space, hw, List.cons_append,
    dropWhile_cons_neg _ _ _ hw0]
  rw [show (w0 :: (w' ++ ' ' :: '%' :: '}' :: rest)) =
    ((w0 :: w') ++ (' ' :: '%' :: '}' :: rest)) from rfl]
  rw [matchLit_self]
  exact matchWsClose_space rest

theorem scanUntilTag_exact (w : List Char) (w0 : Char) (w' : List Char) (hw : w = w0 :: w')
    (hw0 : isWs w0 = false) : ∀ (A rest : List Char), hasPair '{' '%' A = false →
    scanUntilTag w (A ++ '{' :: '%' :: ' ' :: (w ++ ' ' :: '%' :: '}' :: rest)) =
      some (A, rest) := by
  intro A
  induction A with
  | nil =>
    intro rest _
    simp only [List.nil_append]
    rw [scanUntilTag.eq_def]
    simp only [matchTag_at w w0 w' hw hw0 rest]
  | cons a A' ih =>
    intro rest hA
    have hnone : matchTag w (a :: (A' ++ '{' :: '%' :: ' ' ::
        (w ++ ' ' :: '%' :: '}' :: rest))) = none := by
      cases hsplit : A' ++ '{' :: '%' :: ' ' :: (w ++ ' ' :: '%' :: '}' :: rest) with
      | nil => simp at hsplit
      | cons d t =>
        apply matchTag_none_of
        cases A' with
        | nil =>
          simp only [List.nil_append] at hsplit
          cases hsplit
          simp
        | cons e A'' =>
          simp only [List.cons_append] at hsplit
          cases hsplit
          exact (hasPair_cons_false hA).1
    have hih := ih rest (hasPair_tail hA)
    rw [List.cons_append, scanUntilTag.eq_def]
    simp only [hnone, hih]

theorem scanIfBody_exact_else : ∀ (A : List Char) (B post : List Char),
    hasPair '{' '%' A = false → hasPair '{' '%' B = false →
    scanIfBody (A ++ elseTagL ++ B ++ endifTagL ++ post) = some (A, B, post) := by
  intro A
  induction A with
  | nil =>
    intro B post _ hB
    have h1 := matchTag_at elseW 'e' ['l', 's', 'e'] rfl (by decide)
      (B ++ endifTagL ++ post)
    have h2 := scanUntilTag_exact endifW 'e' ['n', 'd', 'i', 'f'] rfl (by decide) B post hB
    simp only [endifTagL, List.cons_append, List.append_assoc, List.nil_append] at h1 h2
    simp only [List.nil_append, elseTagL, endifTagL, List.cons_append, List.append_assoc]
    rw [scanIfBody.eq_def]
    simp only [h1, h2]
  | cons a A' ih =>
    intro B post hA hB
    have htail := ih B post (hasPair_tail hA) hB
    simp only [List.append_assoc] at htail ⊢
    rw [List.cons_append]
    cases hsplit : A' ++ (elseTagL ++ (B ++ (endifTagL ++ post))) with
    | nil => simp [elseTagL] at hsplit
    | cons d t =>
      have hne : ¬(a = '{' ∧ d = '%') := by
        rintro ⟨rfl, rfl⟩
        cases A' with
        | nil =>
          simp only [List.nil_append, elseTagL, List.cons_append] at hsplit
          cases hsplit
        | cons e A'' =>
          simp only [List.cons_append] at hsplit
          cases hsplit
          exact absurd ((hasPair_cons_false hA).1) (by simp)
      rw [hsplit] at htail
      rw [scanIfBody.eq_def]
      simp only [matchTag_none_of elseW a d t hne, matchTag_none_of endifW a d t hne, htail]

theorem scanIfBody_exact_noelse : ∀ (A : List Char) (post : List Char),
    hasPair '{' '%' A = false →
    scanIfBody (A ++ endifTagL ++ post) = some (A, [], post) := by
  intro A
  induction A with
  | nil =>
    intro post _
    have h1 : matchTag elseW ('{' :: '%' :: ' ' ::
        (endifW ++ ' ' :: '%' :: '}' :: post)) = none := by
      simp [matchTag, elseW, endifW, matchLit, isWs]
    have h2 := matchTag_at endifW 'e' ['n', 'd', 'i', 'f'] rfl (by decide) post
    simp only [List.nil_append, endifTagL, List.cons_append, List.append_assoc]
    rw [scanIfBody.eq_def]
    simp only [h1, h2]
  | cons a A' ih =>
    intro post hA
    have htail := ih post (hasPair_tail hA)
    simp only [List.append_assoc] at htail ⊢
    rw [List.cons_append]
    cases hsplit : A' ++ (endifTagL ++ post) with
    | nil => simp [endifTagL] at hsplit
    | cons d t =>
      have hne : ¬(a = '{' ∧ d = '%') := by
        rintro ⟨rfl, rfl⟩
        cases A' with
        | nil =>
          simp only [List.nil_append, endifTagL, List.cons_append] at hsplit
          cases hsplit
        | cons e A'' =>
          simp only [List.cons_append] at hsplit
          cases hsplit
          exact absurd ((hasPair_cons_false hA).1) (by simp)
      rw [hsplit] at htail
      rw [scanIfBody.eq_def]
      simp only [matchTag_none_of elseW a d t hne, matchTag_none_of endifW a d t hne, htail]

theorem matchLit_ifW (t : List Char) : matchLit ifW ('i' :: 'f' :: t) = some t := by
  simp [matchLit, ifW]

theorem matchLit_forW (t : List Char) : matchLit forW ('f' :: 'o' :: 'r' :: t) = some t := by
  simp [matchLit, forW]

theorem matchLit_inW (t : List Char) : matchLit inW ('i' :: 'n' :: t) = some t := by
  simp [matchLit, inW]

theorem wordOk_parts {w : List Char} (h : wordOk w = true) :
    ∃ w0 w', w = w0 :: w' ∧ isWordChar w0 = true ∧ w.all isWordChar = true := by
  cases w with
  | nil => simp [wordOk] at h
  | cons c rest =>
    simp only [wordOk, Bool.and_eq_true, List.all_cons, List.isEmpty_cons] at h
    exact ⟨c, rest, rfl, h.2.1, by simp [h.2.1, h.2.2]⟩

theorem dropWhile_ws_word {w : List Char} (hw : wordOk w = true) (t : List Char) :
    List.dropWhile isWs (w ++ t) = w ++ t := by
  obtain ⟨w0, w', rfl, hw0, -⟩ := wordOk_parts hw
  rw [List.cons_append, dropWhile_cons_neg _ _ _ (wordChar_not_ws hw0)]

/-- The conditional regex matched at the head of the template, else
branch present. -/
theorem tryMatchIf_at_else (cond A B post : List Char) (hc : condOk cond = true)
    (hA : hasPair '{' '%' A = false) (hB : hasPair '{' '%' B = false) :
    tryMatchIf (ifTagL cond ++ A ++ elseTagL ++ B ++ endifTagL ++ post) =
      some (cond, A, B, post) := by
  obtain ⟨c0, r0, hceq, hc0, hlast, hall⟩ := condOk_parts hc
  have hdw : List.dropWhile isWs
      (cond ++ (' ' :: '%' :: '}' :: (A ++ (elseTagL ++ (B ++ (endifTagL ++ post)))))) =
      cond ++ (' ' :: '%' :: '}' :: (A ++ (elseTagL ++ (B ++ (endifTagL ++ post))))) := by
    rw [hceq, List.cons_append, dropWhile_cons_neg _ _ _ hc0]
  have hscan := scanCond_exact hc (A ++ (elseTagL ++ (B ++ (endifTagL ++ post))))
  have hbody := scanIfBody_exact_else A B post hA hB
  simp only [List.append_assoc] at hbody
  simp only [ifTagL, List.cons_append, List.append_assoc, List.nil_append]
  simp [tryMatchIf, matchLit_ifW, List.dropWhile_cons, isWs_space, isWs, hdw, hscan, hbody]

/-- The conditional regex matched at the head of the template, no else
branch: the else capture defaults to the empty string. -/
theorem tryMatchIf_at_noelse (cond A post : List Char) (hc : condOk cond = true)
    (hA : hasPair '{' '%' A = false) :
    tryMatchIf (ifTagL cond ++ A ++ endifTagL ++ post) = some (cond, A, [], post) := by
  obtain ⟨c0, r0, hceq, hc0, hlast, hall⟩ := condOk_parts hc
  have hdw : List.dropWhile isWs
      (cond ++ (' ' :: '%' :: '}' :: (A ++ (endifTagL ++ post)))) =
      cond ++ (' ' :: '%' :: '}' :: (A ++ (endifTagL ++ post))) := by
    rw [hceq, List.cons_append, dropWhile_cons_neg _ _ _ hc0]
  have hscan := scanCond_exact hc (A ++ (endifTagL ++ post))
  have hbody := scanIfBody_exact_noelse A post hA
  simp only [List.append_assoc] at hbody
  simp only [ifTagL, List.cons_append, List.append_assoc, List.nil_append]
  simp [tryMatchIf, matchLit_ifW, List.dropWhile_cons, isWs_space, isWs, hdw, hscan, hbody]

/-- The loop regex matched at the head of the template. -/
theorem tryMatchFor_at (item listName body post : List Char)
    (hitem : wordOk item = true) (hlist : wordOk listName = true)
    (hbody : hasPair '{' '%' body = false) :
    tryMatchFor (forTagL item listName ++ body ++ endforTagL ++ post) =
      some (item, listName, body, post) := by
  obtain ⟨i0, i', hieq, hi0, hiall⟩ := wordOk_parts hitem
  obtain ⟨l0, l', hleq, hl0, hlall⟩ := wordOk_parts hlist
  have hdw1 := dropWhile_ws_word hitem
    (' ' :: 'i' :: 'n' :: ' ' :: (listName ++ (' ' :: '%' :: '}' :: (body ++ (endforTagL ++ post)))))
  have htw1 : List.takeWhile isWordChar (item ++ ' ' :: 'i' :: 'n' :: ' ' ::
      (listName ++ (' ' :: '%' :: '}' :: (body ++ (endforTagL ++ post))))) = item :=
    takeWhile_append_stop isWordChar item _ _ hiall (by decide)
  have hdw2 : List.dropWhile isWordChar (item ++ ' ' :: 'i' :: 'n' :: ' ' ::
      (listName ++ (' ' :: '%' :: '}' :: (body ++ (endforTagL ++ post))))) =
      ' ' :: 'i' :: 'n' :: ' ' ::
        (listName ++ (' ' :: '%' :: '}' :: (body ++ (endforTagL ++ post)))) :=
    dropWhile_append_stop isWordChar item _ _ hiall (by decide)
  have hdw3 := dropWhile_ws_word hlist (' ' :: '%' :: '}' :: (body ++ (endforTagL ++ post)))
  have htw2 : List.takeWhile isWordChar (listName ++ (' ' :: '%' :: '}' ::
      (body ++ (endforTagL ++ post)))) = listName :=
    takeWhile_append_stop isWordChar listName _ _ hlall (by decide)
  have hdw4 : List.dropWhile isWordChar (listName ++ (' ' :: '%' :: '}' ::
      (body ++ (endforTagL ++ post)))) =
      ' ' :: '%' :: '}' :: (body ++ (endforTagL ++ post)) :=
    dropWhile_append_stop isWordChar listName _ _ hlall (by decide)
  have hscan0 := scanUntilTag_exact endforW 'e' ['n', 'd', 'f', 'o', 'r'] rfl (by decide)
    body post hbody
  have hscan : scanUntilTag endforW (body ++ (endforTagL ++ post)) = some (body, post) := by
    simpa only [endforTagL, List.cons_append, List.append_assoc, List.nil_append] using hscan0
  have hne1 : ¬(item = []) := by rw [hieq]; simp
  have hne2 : ¬(listName = []) := by rw [hleq]; simp
  simp only [forTagL, List.cons_append, List.append_assoc, List.nil_append]
  simp [tryMatchFor, matchLit_forW, matchLit_inW, List.dropWhile_cons, isWs_space, isWs,
    headWs, hdw1, htw1, hdw2, hdw3, htw2, hdw4, hne1, hne2, matchWsClose_space, hscan]

theorem pathChar_stop_brace : isPathChar '}' = false := by decide

/-- The variable regex matched at the head of the template: the matched
text is the placeholder itself and the capture trims to the path. -/
theorem tryMatchVar_at (path post : List Char) (hp : pathOk path = true) :
    tryMatchVar (varTagL path ++ post) = some (varTagL path, path, post) := by
  have hpe : path ≠ [] := by
    cases path with
    | nil => simp [pathOk] at hp
    | cons c r => simp
  have hall : path.all isPathChar = true := by
    simp only [pathOk, Bool.and_eq_true] at hp
    exact hp.2
  have hhead : ∃ p0 p', path = p0 :: p' ∧ isPathChar p0 = true := by
    cases path with
    | nil => exact absurd rfl hpe
    | cons c r =>
      simp only [List.all_cons, Bool.and_eq_true] at hall
      exact ⟨c, r, rfl, hall.1⟩
  obtain ⟨p0, p', hpeq, hp0⟩ := hhead
  have htwws : List.takeWhile isWs (path ++ ('}' :: '}' :: post)) = [] := by
    rw [hpeq, List.cons_append, List.takeWhile_cons, if_neg (by simp [pathChar_not_ws hp0])]
  have hdwws : List.dropWhile isWs (path ++ ('}' :: '}' :: post)) =
      path ++ ('}' :: '}' :: post) := by
    rw [hpeq, List.cons_append, dropWhile_cons_neg _ _ _ (pathChar_not_ws hp0)]
  have htwp : List.takeWhile isPathChar (path ++ ('}' :: '}' :: post)) = path :=
    takeWhile_append_stop isPathChar path _ _ hall pathChar_stop_brace
  have hdwp : List.dropWhile isPathChar (path ++ ('}' :: '}' :: post)) =
      '}' :: '}' :: post :=
    dropWhile_append_stop isPathChar path _ _ hall pathChar_stop_brace
  simp only [varTagL, List.cons_append, List.append_assoc, List.nil_append]
  simp [tryMatchVar, htwws, hdwws, htwp, hdwp, hpe, List.takeWhile_cons, List.dropWhile_cons,
    isWs]

/-! ## Claim theorems -/

/-- C9: rendering a string that contains no interpolation or
control-block markers returns it unchanged, for every context. -/
theorem C9_identity_on_plain_text (s : List Char) (ctx : Context)
    (h1 : hasPair '{' '{' s = false) (h2 : hasPair '{' '%' s = false)
    (h3 : hasPair '}' '}' s = false) (h4 : hasPair '%' '}' s = false) :
    renderTemplate s ctx = s :=
  renderTemplate_plain s ctx h1 h2

/-- Witness for C9 at a concrete plain string and context. -/
theorem C9_identity_on_plain_text_witness :
    renderTemplate "hello world.".data [("a".data, Value.str "x".data)] =
      "hello world.".data :=
  C9_identity_on_plain_text _ _ (by decide) (by decide) (by decide) (by decide)

theorem renderEach_join (body : List Char) (ctx : Context) (item : List Char) :
    ∀ items : List Value, renderEach body ctx item items =
      (items.map (fun v => renderTemplate body (ctxInsert ctx item v))).join := by
  intro items
  induction items with
  | nil => simp [renderEach_nil]
  | cons v vs ih => simp [renderEach_cons, ih]

/-- C3: a for-construct resolves, at the loop stage, to the empty string
when the loop target is absent or not an array, and otherwise to the
concatenation (in order, no separator) of one full recursive rendering
of the body per element, each against the parent context extended with
the loop binding; the surrounding text is processed unchanged. -/
theorem C3_loop_expansion (ctx : Context) (pre item listName body post : List Char)
    (hpre : hasPair '{' '%' (pre ++ ['{']) = false)
    (hitem : wordOk item = true) (hlist : wordOk listName = true)
    (hbody : hasPair '{' '%' body = false) :
    handleForLoops ctx (pre ++ forTagL item listName ++ body ++ endforTagL ++ post) =
      pre ++
        (match getKey ctx listName with
         | .arr items =>
           (items.map (fun v => renderTemplate body (ctxInsert ctx item v))).join
         | _ => []) ++ handleForLoops ctx post := by
  have hat := tryMatchFor_at item listName body post hitem hlist hbody
  simp only [List.append_assoc] at hat
  have hcopy := handleForLoops_copy ctx pre
    (forTagL item listName ++ (body ++ (endforTagL ++ post)))
    (by
      simp only [forTagL, List.cons_append, List.take_succ_cons, List.take_zero]
      exact hpre)
  simp only [List.append_assoc]
  rw [hcopy, handleForLoops_eq_some ctx hat]
  congr 1
  congr 1
  cases getKey ctx listName with
  | arr items => simp [renderEach_join]
  | str s => rfl
  | num n => rfl
  | bool b => rfl
  | null => rfl
  | undefined => rfl
  | obj kvs => rfl

/-- Witness for C3: a loop over a two-element array, with text around it. -/
theorem C3_loop_expansion_witness :
    handleForLoops [("xs".data, Value.arr [Value.str "a".data, Value.str "b".data])]
      ("A ".data ++ forTagL "i".data "xs".data ++ "<".data ++ endforTagL ++ " Z".data) =
      "A ".data ++
        (([Value.str "a".data, Value.str "b".data].map
          (fun v => renderTemplate "<".data
            (ctxInsert [("xs".data, Value.arr [Value.str "a".data, Value.str "b".data])]
              "i".data v))).join) ++
        handleForLoops [("xs".data, Value.arr [Value.str "a".data, Value.str "b".data])]
          " Z".data := by
  have h := C3_loop_expansion
    [("xs".data, Value.arr [Value.str "a".data, Value.str "b".data])]
    ("A ".data) ("i".data) ("xs".data) ("<".data) (" Z".data)
    (by decide) (by decide) (by decide) (by decide)
  simpa [getKey, ctxFind] using h

/-- C4: loop scoping.  Each iteration renders against a freshly derived
context (the parent plus the loop binding): the binding shadows the
loop variable inside the iteration, every other key still resolves to
its parent binding (the parent mapping is never altered), sibling
iterations are derived from the parent context and not from each other,
and after the loop the variable resolves per the outer context only
(the spec's leak test stays verbatim). -/
theorem C4_loop_scoping :
    (∀ (ctx : Context) (i : List Char) (v : Value),
      getKey (ctxInsert ctx i v) i = v) ∧
    (∀ (ctx : Context) (i k : List Char) (v : Value), k ≠ i →
      getKey (ctxInsert ctx i v) k = getKey ctx k) ∧
    (∀ (ctx : Context) (i k : List Char) (v : Value), k ≠ i →
      hasKey (ctxInsert ctx i v) k = hasKey ctx k) ∧
    (∀ (body : List Char) (ctx : Context) (item : List Char) (v : Value) (vs : List Value),
      renderEach body ctx item (v :: vs) =
        renderTemplate body (ctxInsert ctx item v) ++ renderEach body ctx item vs) ∧
    renderTemplate
      ("\x7b% for i in xs %\x7d.\x7b% endfor %\x7d\x7b\x7bi\x7d\x7d".data)
      [("xs".data, Value.arr [Value.num 1])] = ".\x7b\x7bi\x7d\x7d".data := by
  refine ⟨?_, ?_, ?_, ?_, ?_⟩
  · intro ctx i v
    simp [getKey, ctxInsert, ctxFind]
  · intro ctx i k v hk
    have hik : ¬(i = k) := fun h => hk h.symm
    simp [getKey, ctxInsert, ctxFind, hik]
  · intro ctx i k v hk
    have hik : ¬(i = k) := fun h => hk h.symm
    simp [hasKey, ctxInsert, ctxFind, hik]
  · intro body ctx item v vs
    exact renderEach_cons body ctx item v vs
  · simp [renderTemplate_eq, handleConditionals_step, handleForLoops_step,
      handleVariables_step, handleFilters_step, renderEach_nil, renderEach_cons,
      tryMatchIf, tryMatchVar, tryMatchFilter, tryMatchFor, matchLit, matchWsClose, scanCond,
      scanIfBody, scanUntilTag, matchTag, evaluateCondition, hasKey, getKey, ctxFind, truthy,
      isWs, isWordChar, isPathChar, headWs, elseW, endifW, ifW, forW, inW, endforW, notW,
      getNestedValue, splitOnCh, walkParts, objTruthy, inValue, indexValue, parseIndex,
      isDigitCh, lengthW, jsString, joinWith, elemString, ctxInsert, applyFilter, parseFilter,
      findQuoted, extractLit, isQuote, trimWs, joinBar, strictEqStr, findCmp, tryCmpAt]

/-- Witness for C4: the frame equation discharged at a concrete key pair. -/
theorem C4_loop_scoping_witness :
    getKey (ctxInsert [("k".data, Value.num 7)] "i".data (Value.num 1)) "k".data =
      getKey [("k".data, Value.num 7)] "k".data :=
  C4_loop_scoping.2.1 [("k".data, Value.num 7)] "i".data "k".data (Value.num 1) (by decide)

/-- A filtered placeholder `\x7b\x7bpath|name\x7d\x7d`. -/
def filterTagL (path name : List Char) : List Char :=
  '{' :: '{' :: (path ++ '|' :: (name ++ ['}', '}']))

theorem all_ne_of_all_pathChar {w : List Char} (h : w.all isPathChar = true)
    {c : Char} (hc : c ∈ w) : isPathChar c = true := by
  rw [List.all_eq_true] at h
  simpa using h c hc

theorem splitOnCh_no_sep (sep : Char) : ∀ w : List Char,
    (∀ c ∈ w, ¬(c = sep)) → splitOnCh sep w = [w] := by
  intro w
  induction w with
  | nil => intro _; rfl
  | cons c rest ih =>
    intro h
    rw [splitOnCh, if_neg (h c (by simp)), ih (fun d hd => h d (by simp [hd]))]

theorem splitOnCh_sep_append (sep : Char) : ∀ (u v : List Char),
    (∀ c ∈ u, ¬(c = sep)) → splitOnCh sep (u ++ sep :: v) = u :: splitOnCh sep v := by
  intro u
  induction u with
  | nil =>
    intro v _
    simp only [List.nil_append]
    rw [splitOnCh, if_pos rfl]
  | cons c rest ih =>
    intro v h
    rw [List.cons_append, splitOnCh, if_neg (h c (by simp)),
      ih v (fun d hd => h d (by simp [hd]))]

theorem dropWhile_all_neg (p : Char → Bool) : ∀ w : List Char,
    (∀ c ∈ w, p c = false) → w.dropWhile p = w := by
  intro w h
  cases w with
  | nil => rfl
  | cons c rest => exact dropWhile_cons_neg p c rest (h c (by simp))

theorem trimWs_id (w : List Char) (h : ∀ c ∈ w, isWs c = false) : trimWs w = w := by
  unfold trimWs
  rw [dropWhile_all_neg isWs w h,
    dropWhile_all_neg isWs w.reverse (fun c hc => h c (List.mem_reverse.mp hc)),
    List.reverse_reverse]

theorem pathChar_not_bar : isPathChar '|' = false := by decide

/-- The filter regex matched at the head of the template, for the
canonical single-filter placeholder without arguments. -/
theorem tryMatchFilter_at (path name post : List Char)
    (hp : pathOk path = true) (hn : wordOk name = true) :
    tryMatchFilter (filterTagL path name ++ post) =
      some (filterTagL path name, path ++ '|' :: name, post) := by
  have hpe : ¬(path = []) := by
    cases path with
    | nil => simp [pathOk] at hp
    | cons c r => simp
  have hpall : path.all isPathChar = true := by
    simp only [pathOk, Bool.and_eq_true] at hp
    exact hp.2
  obtain ⟨p0, p', hpeq, hp0⟩ : ∃ p0 p', path = p0 :: p' ∧ isPathChar p0 = true := by
    cases path with
    | nil => exact absurd rfl hpe
    | cons c r =>
      simp only [List.all_cons, Bool.and_eq_true] at hpall
      exact ⟨c, r, rfl, hpall.1⟩
  obtain ⟨n0, n', hneq, hn0, hnall⟩ := wordOk_parts hn
  have hne : ¬(name = []) := by rw [hneq]; simp
  have htwws : List.takeWhile isWs (path ++ '|' :: (name ++ ('}' :: '}' :: post))) = [] := by
    rw [hpeq, List.cons_append, List.takeWhile_cons, if_neg (by simp [pathChar_not_ws hp0])]
  have hdwws : List.dropWhile isWs (path ++ '|' :: (name ++ ('}' :: '}' :: post))) =
      path ++ '|' :: (name ++ ('}' :: '}' :: post)) := by
    rw [hpeq, List.cons_append, dropWhile_cons_neg _ _ _ (pathChar_not_ws hp0)]
  have htwp : List.takeWhile isPathChar (path ++ '|' :: (name ++ ('}' :: '}' :: post))) =
      path := takeWhile_append_stop isPathChar path _ _ hpall pathChar_not_bar
  have hdwp : List.dropWhile isPathChar (path ++ '|' :: (name ++ ('}' :: '}' :: post))) =
      '|' :: (name ++ ('}' :: '}' :: post)) :=
    dropWhile_append_stop isPathChar path _ _ hpall pathChar_not_bar
  have htwn : List.takeWhile isWordChar (name ++ ('}' :: '}' :: post)) = name :=
    takeWhile_append_stop isWordChar name _ _ hnall (by decide)
  have hdwn : List.dropWhile isWordChar (name ++ ('}' :: '}' :: post)) =
      '}' :: '}' :: post :=
    dropWhile_append_stop isWordChar name _ _ hnall (by decide)
  have hdwn2 : List.dropWhile isWs (name ++ ('}' :: '}' :: post)) =
      name ++ ('}' :: '}' :: post) := by
    rw [hneq, List.cons_append, dropWhile_cons_neg _ _ _ (wordChar_not_ws hn0)]
  have htwn2 : List.takeWhile isWs (name ++ ('}' :: '}' :: post)) = [] := by
    rw [hneq, List.cons_append, List.takeWhile_cons, if_neg (by simp [wordChar_not_ws hn0])]
  simp only [filterTagL, List.cons_append, List.append_assoc, List.nil_append]
  simp [tryMatchFilter, htwws, hdwws, htwp, hdwp, htwn, hdwn, hdwn2, htwn2, hpe, hne,
    List.takeWhile_cons, List.dropWhile_cons, isWs]

/-- C5: the verbatim-on-undefined invariant.  A plain placeholder whose
dotted-path resolution is undefined is left verbatim by the variable
stage, and one resolving to a defined value is replaced by its string
coercion; a filtered placeholder is treated the same way by the filter
stage after applying the filter to the resolved value. -/
theorem C5_verbatim_on_undefined (ctx : Context)
    (pre path post pre2 path2 name post2 : List Char)
    (hpre : hasPair '{' '{' (pre ++ ['{']) = false) (hp : pathOk path = true)
    (hpre2 : hasPair '{' '{' (pre2 ++ ['{']) = false) (hp2 : pathOk path2 = true)
    (hn : wordOk name = true) :
    handleVariables ctx (pre ++ varTagL path ++ post) =
      pre ++
        (match getNestedValue ctx path with
         | .undefined => varTagL path
         | v => jsString v) ++ handleVariables ctx post ∧
    handleFilters ctx (pre2 ++ filterTagL path2 name ++ post2) =
      pre2 ++
        (match applyFilter (getNestedValue ctx path2) name with
         | .undefined => filterTagL path2 name
         | v => jsString v) ++ handleFilters ctx post2 := by
  constructor
  · have hat := tryMatchVar_at path post hp
    have hcopy := handleVariables_copy ctx pre (varTagL path ++ post)
      (by
        simp only [varTagL, List.cons_append, List.take_succ_cons, List.take_zero]
        exact hpre)
    simp only [List.append_assoc]
    rw [hcopy, handleVariables_eq_some ctx hat]
  · have hat := tryMatchFilter_at path2 name post2 hp2 hn
    have hcopy := handleFilters_copy ctx pre2 (filterTagL path2 name ++ post2)
      (by
        simp only [filterTagL, List.cons_append, List.take_succ_cons, List.take_zero]
        exact hpre2)
    have hp2all : path2.all isPathChar = true := by
      simp only [pathOk, Bool.and_eq_true] at hp2
      exact hp2.2
    obtain ⟨n0, n', hneq, hn0, hnall⟩ := wordOk_parts hn
    have hsplit : splitOnCh '|' (path2 ++ '|' :: name) = [path2, name] := by
      rw [splitOnCh_sep_append '|' path2 name
        (fun c hc => by
          have := all_ne_of_all_pathChar hp2all hc
          rintro rfl
          rw [pathChar_not_bar] at this
          simp at this),
        splitOnCh_no_sep '|' name
          (fun c hc => by
            have hcw : isWordChar c = true := by
              rw [List.all_eq_true] at hnall
              simpa using hnall c hc
            rintro rfl
            simp [isWordChar] at hcw)]
    have htrimp : trimWs path2 = path2 :=
      trimWs_id path2 (fun c hc => pathChar_not_ws (all_ne_of_all_pathChar hp2all hc))
    have htrimn : trimWs name = name :=
      trimWs_id name (fun c hc => wordChar_not_ws (by
        rw [List.all_eq_true] at hnall
        simpa using hnall c hc))
    simp only [List.append_assoc]
    rw [hcopy, handleFilters_eq_some ctx hat]
    simp only [hsplit, List.map_cons, List.map_nil, htrimp, htrimn, List.isEmpty_cons,
      Bool.false_eq_true, if_false, joinBar]

/-- Witness for C5: an undefined plain placeholder stays verbatim while a
defined filtered placeholder is substituted, in one concrete render. -/
theorem C5_verbatim_on_undefined_witness :
    handleVariables [("a".data, Value.str "x".data)]
      ("u ".data ++ varTagL "b".data ++ "".data) =
      "u ".data ++ varTagL "b".data ++
        handleVariables [("a".data, Value.str "x".data)] "".data ∧
    handleFilters [("a".data, Value.str "x".data)]
      ("".data ++ filterTagL "a".data "upper".data ++ " w".data) =
      "".data ++ "X".data ++
        handleFilters [("a".data, Value.str "x".data)] " w".data := by
  have h := C5_verbatim_on_undefined [("a".data, Value.str "x".data)]
    "u ".data "b".data "".data "".data "a".data "upper".data " w".data
    (by decide) (by decide) (by decide) (by decide) (by decide)
  obtain ⟨h1, h2⟩ := h
  constructor
  · simpa [getNestedValue, splitOnCh, walkParts, objTruthy, inValue, indexValue,
      ctxFind, parseIndex] using h1
  · simpa [getNestedValue, splitOnCh, walkParts, objTruthy, inValue, indexValue,
      ctxFind, parseIndex, applyFilter, parseFilter, isWordChar, jsString,
      isQuote, extractLit, findQuoted] using h2

/-! ## Nested-conditional machinery (for the C2 correction) -/

theorem hasPair_cons_of {p q a : Char} {r : List Char} (h1 : hasPair p q r = false)
    (h2 : ∀ d t, r = d :: t → ¬(a = p ∧ d = q)) : hasPair p q (a :: r) = false := by
  cases r with
  | nil => simp [hasPair]
  | cons d t =>
    simp only [hasPair, Bool.or_eq_false_iff, Bool.and_eq_false_iff]
    refine ⟨?_, h1⟩
    rcases Decidable.em (a = p) with hp | hp
    · right
      have := h2 d t rfl
      simp only [decide_eq_false_iff_not]
      intro hq
      exact this ⟨hp, hq⟩
    · left
      simpa using hp

theorem hasPair_no_snd {p q : Char} : ∀ w : List Char, (∀ c ∈ w, ¬(c = q)) →
    hasPair p q w = false := by
  intro w
  induction w with
  | nil => intro _; rfl
  | cons a rest ih =>
    intro h
    refine hasPair_cons_of (ih (fun c hc => h c (by simp [hc]))) ?_
    intro d t heq hc
    exact h d (by simp [heq]) hc.2

theorem hasPair_append_false {p q : Char} : ∀ (u v : List Char),
    hasPair p q (u ++ v.take 1) = false → hasPair p q v = false →
    hasPair p q (u ++ v) = false := by
  intro u
  induction u with
  | nil => intro v _ hv; simpa using hv
  | cons a u' ih =>
    intro v hu hv
    rw [List.cons_append]
    refine hasPair_cons_of (ih v (hasPair_tail hu) hv) ?_
    intro d t heq hc
    cases u' with
    | nil =>
      simp only [List.nil_append] at heq
      subst heq
      simp only [List.nil_append, List.take_succ_cons, List.take_zero] at hu
      exact (hasPair_cons_false hu).1 hc
    | cons e u'' =>
      simp only [List.cons_append, List.cons.injEq] at heq
      simp only [List.cons_append] at hu
      exact (hasPair_cons_false hu).1 ⟨hc.1, heq.1 ▸ hc.2⟩

theorem hasPair_append_last {p q y : Char} (hy : ¬(y = q)) : ∀ X : List Char,
    hasPair p q X = false → hasPair p q (X ++ [y]) = false := by
  intro X
  induction X with
  | nil => intro _; simp [hasPair]
  | cons a X' ih =>
    intro h
    rw [List.cons_append]
    refine hasPair_cons_of (ih (hasPair_tail h)) ?_
    intro d t heq hc
    cases X' with
    | nil =>
      simp only [List.nil_append, List.cons.injEq] at heq
      exact hy (heq.1 ▸ hc.2)
    | cons e X'' =>
      simp only [List.cons_append, List.cons.injEq] at heq
      exact (hasPair_cons_false h).1 ⟨hc.1, heq.1 ▸ hc.2⟩

/-- Scanning the if-body past a marker-free stretch only lengthens the
captured if-branch. -/
theorem scanIfBody_skip : ∀ (P s : List Char),
    hasPair '{' '%' (P ++ s.take 1) = false →
    scanIfBody (P ++ s) = (scanIfBody s).map (fun x => (P ++ x.1, x.2.1, x.2.2)) := by
  intro P
  induction P with
  | nil =>
    intro s _
    simp only [List.nil_append]
    cases hres : scanIfBody s with
    | none => simp
    | some x =>
      obtain ⟨i, e, r⟩ := x
      simp
  | cons a P' ih =>
    intro s h
    have hrec := ih s (hasPair_tail h)
    have hnone : ∀ w, matchTag w (a :: (P' ++ s)) = none := by
      intro w
      cases hcs : P' ++ s with
      | nil => simp [matchTag]
      | cons d t => exact matchTag_none_of w a d t (pair_head_safe (by simpa using h) d t hcs)
    rw [List.cons_append, scanIfBody.eq_def]
    simp only [hnone]
    cases hres : scanIfBody s with
    | none =>
      rw [hres] at hrec
      simp only [Option.map_none'] at hrec
      simp [hrec, hres]
    | some x =>
      obtain ⟨i, e, r⟩ := x
      rw [hres] at hrec
      simp only [Option.map_some'] at hrec
      simp [hrec, hres]

theorem matchLit_elseW_i (t : List Char) : matchLit elseW ('i' :: t) = none := by
  simp [matchLit, elseW]

theorem matchLit_endifW_i (t : List Char) : matchLit endifW ('i' :: t) = none := by
  simp [matchLit, endifW]

theorem matchTag_none_ifheader (w : List Char) (Z : List Char)
    (hlit : ∀ t : List Char, matchLit w ('i' :: t) = none) :
    matchTag w ('{' :: '%' :: ' ' :: 'i' :: 'f' :: ' ' :: Z) = none := by
  simp [matchTag, List.dropWhile_cons, isWs_space, isWs, hlit]

theorem hasPair_cons_ne {p q a : Char} {r : List Char} (ha : ¬(a = p))
    (h1 : hasPair p q r = false) : hasPair p q (a :: r) = false :=
  hasPair_cons_of h1 (fun _ _ _ hc => absurd hc.1 ha)

/-- A nested if-block inside the body: the body scanner stops at the FIRST
endif, so the captured if-branch retains the inner if-tag and its body, and
the inner endif is left in the remainder. -/
theorem scanIfBody_nested (c2 X tail0 : List Char) (hc2 : condOk c2 = true)
    (hX : hasPair '{' '%' X = false) :
    scanIfBody (ifTagL c2 ++ X ++ endifTagL ++ tail0) =
      some (ifTagL c2 ++ X, [], tail0) := by
  obtain ⟨-, -, -, -, -, hall⟩ := condOk_parts hc2
  have hX1 : hasPair '{' '%' (X ++ ['{']) = false :=
    hasPair_append_last (by decide) X hX
  have h3 : hasPair '{' '%' ('}' :: (X ++ ['{'])) = false :=
    hasPair_cons_ne (by decide) hX1
  have h4 : hasPair '{' '%' ('%' :: '}' :: (X ++ ['{'])) = false :=
    hasPair_cons_ne (by decide) h3
  have h5 : hasPair '{' '%' (' ' :: '%' :: '}' :: (X ++ ['{'])) = false :=
    hasPair_cons_ne (by decide) h4
  have hc2sp : hasPair '{' '%' (c2 ++ [' ']) = false := by
    refine hasPair_no_snd _ ?_
    intro c hc
    rcases List.mem_append.mp hc with hm | hm
    · have := List.all_eq_true.mp hall c hm
      simpa using this
    · simp only [List.mem_singleton] at hm
      subst hm
      decide
  have h6 : hasPair '{' '%' (c2 ++ (' ' :: '%' :: '}' :: (X ++ ['{']))) = false :=
    hasPair_append_false c2 _ hc2sp h5
  have h7 : hasPair '{' '%' (' ' :: (c2 ++ (' ' :: '%' :: '}' :: (X ++ ['{'])))) = false :=
    hasPair_cons_ne (by decide) h6
  have h8 : hasPair '{' '%' ('f' :: ' ' :: (c2 ++ (' ' :: '%' :: '}' :: (X ++ ['{'])))) = false :=
    hasPair_cons_ne (by decide) h7
  have h9 : hasPair '{' '%'
      ('i' :: 'f' :: ' ' :: (c2 ++ (' ' :: '%' :: '}' :: (X ++ ['{'])))) = false :=
    hasPair_cons_ne (by decide) h8
  have h10 : hasPair '{' '%'
      (' ' :: 'i' :: 'f' :: ' ' :: (c2 ++ (' ' :: '%' :: '}' :: (X ++ ['{'])))) = false :=
    hasPair_cons_ne (by decide) h9
  have h11 : hasPair '{' '%'
      ('%' :: ' ' :: 'i' :: 'f' :: ' ' :: (c2 ++ (' ' :: '%' :: '}' :: (X ++ ['{'])))) = false :=
    hasPair_cons_ne (by decide) h10
  have hinner : scanIfBody (endifTagL ++ tail0) = some ([], [], tail0) := by
    have := scanIfBody_exact_noelse [] tail0 (by simp [hasPair])
    simpa using this
  have hstep := scanIfBody_skip
    ('%' :: ' ' :: 'i' :: 'f' :: ' ' :: (c2 ++ (' ' :: '%' :: '}' :: X)))
    (endifTagL ++ tail0)
    (by
      simpa only [endifTagL, List.cons_append, List.append_assoc, List.nil_append,
        List.take_succ_cons, List.take_zero] using h11)
  rw [hinner] at hstep
  simp only [Option.map_some', List.cons_append, List.append_assoc, List.append_nil] at hstep
  have h1 := matchTag_none_ifheader elseW
    (c2 ++ ' ' :: '%' :: '}' :: (X ++ (endifTagL ++ tail0))) matchLit_elseW_i
  have h2 := matchTag_none_ifheader endifW
    (c2 ++ ' ' :: '%' :: '}' :: (X ++ (endifTagL ++ tail0))) matchLit_endifW_i
  simp only [ifTagL, List.cons_append, List.append_assoc, List.nil_append]
  rw [scanIfBody.eq_def]
  simp only [h1, h2, hstep]

/-- The conditional regex matched on a template whose if-branch itself
starts with a nested if-block: the non-greedy body capture ends at the
first endif-tag. -/
theorem tryMatchIf_nested (c1 c2 X tail0 : List Char) (hc1 : condOk c1 = true)
    (hc2 : condOk c2 = true) (hX : hasPair '{' '%' X = false) :
    tryMatchIf (ifTagL c1 ++ (ifTagL c2 ++ X) ++ endifTagL ++ (endifTagL ++ tail0)) =
      some (c1, ifTagL c2 ++ X, [], endifTagL ++ tail0) := by
  obtain ⟨c0, r0, hceq, hc0, hlast, hall⟩ := condOk_parts hc1
  have hbody := scanIfBody_nested c2 X (endifTagL ++ tail0) hc2 hX
  have hscan := scanCond_exact hc1
    ((ifTagL c2 ++ X) ++ (endifTagL ++ (endifTagL ++ tail0)))
  have hdw : List.dropWhile isWs
      (c1 ++ (' ' :: '%' :: '}' ::
        ((ifTagL c2 ++ X) ++ (endifTagL ++ (endifTagL ++ tail0))))) =
      c1 ++ (' ' :: '%' :: '}' ::
        ((ifTagL c2 ++ X) ++ (endifTagL ++ (endifTagL ++ tail0)))) := by
    rw [hceq, List.cons_append, dropWhile_cons_neg _ _ _ hc0]
  simp only [ifTagL, List.cons_append, List.append_assoc, List.nil_append]
    at hbody hscan hdw ⊢
  simp [tryMatchIf, matchLit_ifW, List.dropWhile_cons, isWs_space, isWs, hdw, hscan, hbody]

/-- C2 (corrected): the conditional stage replaces a flat matched
if/else block by the chosen branch's unrendered text (first conjunct);
but the claim's nested-resolution half fails: the lazy body capture
stops at the FIRST endif-tag, so an if-block nested inside the chosen
branch is cut at the inner endif and survives unresolved (second
conjunct: the chosen branch emitted is the raw nested if-tag plus its
body, with the inner endif-tag left to the scan of the remainder). -/
theorem C2_conditional_branch_selection (ctx : Context)
    (pre cond A B post c1 c2 X tail0 : List Char)
    (hpre : hasPair '{' '%' (pre ++ ['{']) = false)
    (hc : condOk cond = true)
    (hA : hasPair '{' '%' A = false) (hB : hasPair '{' '%' B = false)
    (hc1 : condOk c1 = true) (hc2 : condOk c2 = true)
    (hX : hasPair '{' '%' X = false) :
    handleConditionals ctx
        (pre ++ ifTagL cond ++ A ++ elseTagL ++ B ++ endifTagL ++ post) =
      pre ++ (if evaluateCondition cond ctx then A else B) ++
        handleConditionals ctx post ∧
    handleConditionals ctx
        (ifTagL c1 ++ (ifTagL c2 ++ X) ++ endifTagL ++ (endifTagL ++ tail0)) =
      (if evaluateCondition c1 ctx then ifTagL c2 ++ X else []) ++
        handleConditionals ctx (endifTagL ++ tail0) := by
  constructor
  · have hat := tryMatchIf_at_else cond A B post hc hA hB
    simp only [List.append_assoc] at hat
    have hcopy := handleConditionals_copy ctx pre
      (ifTagL cond ++ (A ++ (elseTagL ++ (B ++ (endifTagL ++ post)))))
      (by
        simp only [ifTagL, List.cons_append, List.take_succ_cons, List.take_zero]
        exact hpre)
    simp only [List.append_assoc]
    rw [hcopy, handleConditionals_eq_some ctx hat]
  · have hat := tryMatchIf_nested c1 c2 X tail0 hc1 hc2 hX
    rw [handleConditionals_eq_some ctx hat]

/-- Witness for C2 at concrete inputs: a flat if/else block picks the
else branch under a falsy context, and a nested if-block's outer match
keeps the inner if-tag in the emitted branch. -/
theorem C2_conditional_branch_selection_witness :
    handleConditionals []
        ("> ".data ++ ifTagL "a".data ++ "Y".data ++ elseTagL ++ "N".data ++
          endifTagL ++ "!".data) =
      "> ".data ++ (if evaluateCondition "a".data [] then "Y".data else "N".data) ++
        handleConditionals [] "!".data ∧
    handleConditionals [("a".data, Value.bool true)]
        (ifTagL "a".data ++ (ifTagL "b".data ++ "X".data) ++ endifTagL ++
          (endifTagL ++ [])) =
      (if evaluateCondition "a".data [("a".data, Value.bool true)] then
        ifTagL "b".data ++ "X".data else []) ++
        handleConditionals [("a".data, Value.bool true)] (endifTagL ++ []) := by
  have h1 := C2_conditional_branch_selection [] ("> ".data) ("a".data) ("Y".data)
    ("N".data) ("!".data) ("a".data) ("b".data) ("X".data) []
    (by decide) (by decide) (by decide) (by decide) (by decide) (by decide) (by decide)
  have h2 := C2_conditional_branch_selection [("a".data, Value.bool true)] ("> ".data)
    ("a".data) ("Y".data) ("N".data) ("!".data) ("a".data) ("b".data) ("X".data) []
    (by decide) (by decide) (by decide) (by decide) (by decide) (by decide) (by decide)
  exact ⟨h1.1, h2.2⟩

/-- C2 counterexample: both conditions truthy, yet the nested template
does not render to "X": the outer match's lazy body capture ends at the
first endif-tag, so the inner if-block survives to the output verbatim. -/
theorem C2_nested_if_counterexample :
    renderTemplate
        ("\x7b% if a %\x7d\x7b% if b %\x7dX\x7b% endif %\x7d\x7b% endif %\x7d".data)
        [("a".data, Value.bool true), ("b".data, Value.bool true)] =
      "\x7b% if b %\x7dX\x7b% endif %\x7d".data ∧
    ("\x7b% if b %\x7dX\x7b% endif %\x7d".data : List Char) ≠ "X".data := by
  constructor
  · simp [renderTemplate_eq, handleConditionals_step, handleForLoops_step,
      handleVariables_step, handleFilters_step, renderEach_nil, renderEach_cons,
      tryMatchIf, tryMatchVar, tryMatchFilter, tryMatchFor, matchLit, matchWsClose, scanCond,
      scanIfBody, scanUntilTag, matchTag, evaluateCondition, hasKey, getKey, ctxFind, truthy,
      isWs, isWordChar, isPathChar, headWs, elseW, endifW, ifW, forW, inW, endforW, notW,
      getNestedValue, splitOnCh, walkParts, objTruthy, inValue, indexValue, parseIndex,
      isDigitCh, lengthW, jsString, joinWith, elemString, ctxInsert, applyFilter, parseFilter,
      findQuoted, extractLit, isQuote, trimWs, joinBar, strictEqStr, findCmp, tryCmpAt]
  · decide

/-- C7: the default filter applied to value v with a quoted literal
argument: undefined, null and the empty string are replaced by the
literal; every other value passes through unchanged. -/
theorem C7_default_filter (v : Value) (lit : List Char) (hne : lit ≠ [])
    (hq : ∀ c ∈ lit, isQuote c = false) (hp : ∀ c ∈ lit, ¬(c = ')')) :
    applyFilter v ("default(\"".data ++ (lit ++ "\")".data)) =
      (match v with
       | .undefined => .str lit
       | .null => .str lit
       | .str [] => .str lit
       | _ => v) := by
  have hfs : "default(\"".data ++ (lit ++ "\")".data) =
      'd' :: 'e' :: 'f' :: 'a' :: 'u' :: 'l' :: 't' :: '(' ::
        ('"' :: ((lit ++ ['"']) ++ ')' :: [])) := by
    have h1 : "default(\"".data = ['d', 'e', 'f', 'a', 'u', 'l', 't', '(', '"'] := rfl
    have h2 : "\")".data = ['"', ')'] := rfl
    rw [h1, h2]
    simp
  have htwa : List.takeWhile (fun x => !decide (x = ')')) (lit ++ ['"', ')']) =
      lit ++ ['"'] := by
    have hassoc : (lit ++ ['"', ')']) = (lit ++ ['"']) ++ ')' :: [] := by simp
    rw [hassoc]
    refine takeWhile_append_stop _ _ _ _ ?_ (by decide)
    rw [List.all_eq_true]
    intro x hx
    rcases List.mem_append.mp hx with hm | hm
    · simpa using hp x hm
    · simp only [List.mem_singleton] at hm
      subst hm
      decide
  have hlen : ¬(lit.length + 2 ≤ (lit ++ ['"']).length) := by simp
  have hdrop : ((lit ++ ['"']) ++ ')' :: []).drop (lit ++ ['"']).length = [')'] :=
    List.drop_left _ _
  have htwq : ((lit ++ ['"']).takeWhile fun x => !isQuote x) = lit := by
    refine takeWhile_append_stop _ _ _ _ ?_ (by decide)
    rw [List.all_eq_true]
    intro x hx
    simpa using hq x hx
  have hdropq : (lit ++ ['"']).drop lit.length = ['"'] := List.drop_left _ _
  have hparse : parseFilter ('d' :: 'e' :: 'f' :: 'a' :: 'u' :: 'l' :: 't' :: '(' ::
      ('"' :: ((lit ++ ['"']) ++ ')' :: []))) =
      some (['d', 'e', 'f', 'a', 'u', 'l', 't'], some ('"' :: (lit ++ ['"']))) := by
    rw [parseFilter.eq_def]
    simp [isWordChar, List.takeWhile_cons, List.dropWhile_cons]
    rw [htwa, if_neg hlen]
  have hquoted : findQuoted ('"' :: (lit ++ ['"'])) = some lit := by
    rw [findQuoted.eq_def]
    simp only [show isQuote '"' = true from by decide, if_true, htwq, hdropq]
    rw [if_pos ⟨hne, by decide⟩]
  rw [hfs]
  simp only [applyFilter, hparse]
  simp [extractLit, hquoted]

/-- Witness for C7 at the spec's example literal "z": the empty string
takes the default and a nonempty string passes through. -/
theorem C7_default_filter_witness :
    applyFilter (Value.str []) ("default(\"".data ++ ("z".data ++ "\")".data)) =
      Value.str "z".data ∧
    applyFilter (Value.str "v".data) ("default(\"".data ++ ("z".data ++ "\")".data)) =
      Value.str "v".data := by
  have h1 := C7_default_filter (Value.str []) "z".data (by decide)
    (by intro c hc; simp at hc; subst hc; decide)
    (by intro c hc; simp at hc; subst hc; decide)
  have h2 := C7_default_filter (Value.str "v".data) "z".data (by decide)
    (by intro c hc; simp at hc; subst hc; decide)
    (by intro c hc; simp at hc; subst hc; decide)
  exact ⟨by simpa using h1, by simpa using h2⟩

/-- C10: the join filter treats an explicit empty-string separator
exactly like an omitted one: both join with the default ", ", because
the quote-stripped argument is tested for emptiness (truthiness) before
the default applies; joining with the empty string itself would give a
different result. -/
theorem C10_join_empty_separator (xs : List Value) :
    applyFilter (Value.arr xs) ("join(\"\")".data) =
      Value.str (joinWith [',', ' '] xs) ∧
    applyFilter (Value.arr xs) ("join".data) =
      Value.str (joinWith [',', ' '] xs) ∧
    joinWith [] [Value.str "a".data, Value.str "b".data] ≠
      joinWith [',', ' '] [Value.str "a".data, Value.str "b".data] := by
  refine ⟨?_, ?_, by simp [joinWith, elemString, jsString]⟩
  · have h1 : ("join(\"\")".data) = ['j', 'o', 'i', 'n', '(', '"', '"', ')'] := rfl
    rw [h1]
    simp [applyFilter, parseFilter, isWordChar, isQuote, List.takeWhile_cons,
      List.dropWhile_cons]
  · have h2 : ("join".data) = ['j', 'o', 'i', 'n'] := rfl
    rw [h2]
    simp [applyFilter, parseFilter, isWordChar, List.takeWhile_cons,
      List.dropWhile_cons]

/-! ## Condition-evaluation machinery (C6) -/

theorem wordChar_not_quote {c : Char} (h : isWordChar c = true) : isQuote c = false := by
  cases hq : isQuote c
  · rfl
  · simp only [isQuote, Bool.or_eq_true, decide_eq_true_eq] at hq
    rcases hq with rfl | rfl <;> exact absurd h (by decide)

theorem tryCmpAt_notword {op1 op2 c : Char} {rest : List Char}
    (h : isWordChar c = false) : tryCmpAt op1 op2 (c :: rest) = none := by
  simp [tryCmpAt, h]

theorem tryCmpAt_none (op1 op2 : Char) (s : List Char)
    (h : ∀ d1 d2 r2, (s.dropWhile isWordChar).dropWhile isWs = d1 :: d2 :: r2 →
      ¬(d1 = op1 ∧ d2 = op2)) : tryCmpAt op1 op2 s = none := by
  cases s with
  | nil => rfl
  | cons c rest =>
    by_cases hw : isWordChar c = true
    · rw [tryCmpAt.eq_def]
      simp only [hw, if_true]
      cases h1 : ((c :: rest).dropWhile isWordChar).dropWhile isWs with
      | nil => rfl
      | cons d1 tl =>
        cases tl with
        | nil => rfl
        | cons d2 r2 =>
          have hne := h d1 d2 r2 h1
          simp [hne]
    · exact tryCmpAt_notword (by simpa using hw)

theorem findCmp_cons_none {op1 op2 c : Char} {rest : List Char}
    (h1 : tryCmpAt op1 op2 (c :: rest) = none)
    (h2 : findCmp op1 op2 rest = none) : findCmp op1 op2 (c :: rest) = none := by
  simp [findCmp, h1, h2]

theorem findCmp_head {op1 op2 c : Char} {rest : List Char}
    {r : List Char × List Char} (h : tryCmpAt op1 op2 (c :: rest) = some r) :
    findCmp op1 op2 (c :: rest) = some r := by
  simp [findCmp, h]

theorem mem_of_mem_dropWhile (p : Char → Bool) : ∀ (s : List Char) (c : Char),
    c ∈ s.dropWhile p → c ∈ s := by
  intro s
  induction s with
  | nil => intro c h; simpa using h
  | cons a rest ih =>
    intro c h
    rw [List.dropWhile_cons] at h
    by_cases hp : p a = true
    · simp only [hp, if_true] at h
      exact List.mem_cons_of_mem _ (ih c h)
    · simp only [hp, if_false] at h
      exact h

/-- The comparison scan fails outright on conditions with no `=` at all
(`=` is the second operator character of both `==` and `!=`). -/
theorem findCmp_none_no_eq (op1 : Char) : ∀ s : List Char, '=' ∉ s →
    findCmp op1 '=' s = none := by
  intro s
  induction s with
  | nil => intro _; rfl
  | cons c rest ih =>
    intro h
    refine findCmp_cons_none ?_ (ih (fun hm => h (List.mem_cons_of_mem c hm)))
    refine tryCmpAt_none _ _ _ ?_
    intro d1 d2 r2 h1 hc
    apply h
    have h2m : d2 ∈ ((c :: rest).dropWhile isWordChar).dropWhile isWs := by
      rw [h1]; simp
    have hmem := mem_of_mem_dropWhile isWordChar _ _
      (mem_of_mem_dropWhile isWs _ _ h2m)
    rw [← hc.2]
    exact hmem

theorem findCmp_word_skip (op1 op2 : Char) (T : List Char)
    (hT : findCmp op1 op2 T = none)
    (hTat : ∀ v', v'.all isWordChar = true → v' ≠ [] →
      tryCmpAt op1 op2 (v' ++ T) = none) :
    ∀ v, v.all isWordChar = true → findCmp op1 op2 (v ++ T) = none := by
  intro v
  induction v with
  | nil => intro _; simpa using hT
  | cons c v' ih =>
    intro hall
    simp only [List.all_cons, Bool.and_eq_true] at hall
    rw [List.cons_append]
    refine findCmp_cons_none ?_ (ih hall.2)
    have := hTat (c :: v') (by simp [hall.1, hall.2]) (by simp)
    simpa using this

theorem findCmp_none_word_quote (op1 op2 : Char) (lit : List Char)
    (hlw : lit.all isWordChar = true) : findCmp op1 op2 (lit ++ ['"']) = none := by
  refine findCmp_word_skip op1 op2 ['"']
    (findCmp_cons_none (tryCmpAt_notword (by decide)) rfl) ?_ lit hlw
  intro v'' hall hne
  refine tryCmpAt_none _ _ _ ?_
  intro d1 d2 r2 heq
  rw [dropWhile_append_stop isWordChar v'' '"' [] hall (by decide)] at heq
  rw [show List.dropWhile isWs ['"'] = ['"'] from by decide] at heq
  simp at heq

/-- The comparison pattern matched at the very start of the condition,
with canonical spacing and a double-quoted word literal. -/
theorem tryCmpAt_at (op1 op2 : Char) (v lit : List Char)
    (hop1 : isWs op1 = false) (hv : wordOk v = true) (hlit : lit ≠ [])
    (hlw : lit.all isWordChar = true) :
    tryCmpAt op1 op2 (v ++ ' ' :: op1 :: op2 :: ' ' :: '"' :: (lit ++ ['"'])) =
      some (v, lit) := by
  obtain ⟨v0, v', hveq, hv0, hvall⟩ := wordOk_parts hv
  have htw : (v ++ ' ' :: op1 :: op2 :: ' ' :: '"' :: (lit ++ ['"'])).takeWhile
      isWordChar = v := takeWhile_append_stop _ v _ _ hvall (by decide)
  have hdw : (v ++ ' ' :: op1 :: op2 :: ' ' :: '"' :: (lit ++ ['"'])).dropWhile
      isWordChar = ' ' :: op1 :: op2 :: ' ' :: '"' :: (lit ++ ['"']) :=
    dropWhile_append_stop _ v _ _ hvall (by decide)
  have hcontent : ((lit ++ ['"']).takeWhile fun x => !isQuote x) = lit := by
    refine takeWhile_append_stop _ _ _ _ ?_ (by decide)
    rw [List.all_eq_true]
    intro x hx
    simp [wordChar_not_quote (List.all_eq_true.mp hlw x hx)]
  have hdropc : (lit ++ ['"']).drop lit.length = ['"'] := List.drop_left _ _
  subst hveq
  simp only [List.cons_append] at htw hdw ⊢
  rw [tryCmpAt.eq_def]
  simp [hv0, htw, hdw, List.dropWhile_cons, isWs_space, hop1, hcontent,
    hdropc, hlit, show isWs '"' = false from by decide,
    show isQuote '"' = true from by decide]

/-- C6 (corrected): condition evaluation in source order: key-presence
truthiness first; then the == comparison against a quoted literal, then
!=, then the `not ` prefix, else false.  The comparison patterns are NOT
anchored to the whole condition (see the counterexample theorem), so the
== and != clauses are stated at the canonical spacing with a word
literal, and the final fallback needs the absence of `=` in the
condition rather than merely "not being of the comparison form". -/
theorem C6_condition_evaluation (ctx : Context) (cond w v lit : List Char)
    (hv : wordOk v = true) (hlit : lit ≠ []) (hlw : lit.all isWordChar = true) :
    (hasKey ctx cond = true → evaluateCondition cond ctx = truthy (getKey ctx cond)) ∧
    (hasKey ctx (v ++ (" == \"".data ++ (lit ++ "\"".data))) = false →
      evaluateCondition (v ++ (" == \"".data ++ (lit ++ "\"".data))) ctx =
        strictEqStr (getKey ctx v) lit) ∧
    (hasKey ctx (v ++ (" != \"".data ++ (lit ++ "\"".data))) = false →
      evaluateCondition (v ++ (" != \"".data ++ (lit ++ "\"".data))) ctx =
        !strictEqStr (getKey ctx v) lit) ∧
    (hasKey ctx (notW ++ w) = false → '=' ∉ w →
      evaluateCondition (notW ++ w) ctx = !truthy (getKey ctx (trimWs w))) ∧
    (hasKey ctx cond = false → '=' ∉ cond → matchLit notW cond = none →
      evaluateCondition cond ctx = false) := by
  obtain ⟨v0, v', hveq, hv0, hvall⟩ := wordOk_parts hv
  have heqq : (" == \"".data : List Char) = [' ', '=', '=', ' ', '"'] := rfl
  have hneq : (" != \"".data : List Char) = [' ', '!', '=', ' ', '"'] := rfl
  have hqq : ("\"".data : List Char) = ['"'] := rfl
  refine ⟨?_, ?_, ?_, ?_, ?_⟩
  · intro h
    simp [evaluateCondition, h]
  · intro hk
    rw [heqq, hqq] at hk ⊢
    simp only [List.cons_append, List.nil_append] at hk ⊢
    have hat := tryCmpAt_at '=' '=' v lit (by decide) hv hlit hlw
    have hfind : findCmp '=' '='
        (v ++ ' ' :: '=' :: '=' :: ' ' :: '"' :: (lit ++ ['"'])) = some (v, lit) := by
      rw [hveq] at hat ⊢
      simp only [List.cons_append] at hat ⊢
      exact findCmp_head hat
    simp [evaluateCondition, hk, hfind]
  · intro hk
    rw [hneq, hqq] at hk ⊢
    simp only [List.cons_append, List.nil_append] at hk ⊢
    have hat := tryCmpAt_at '!' '=' v lit (by decide) hv hlit hlw
    have hTat : ∀ v1, v1.all isWordChar = true → v1 ≠ [] →
        tryCmpAt '=' '=' (v1 ++ ' ' :: '!' :: '=' :: ' ' :: '"' :: (lit ++ ['"'])) =
          none := by
      intro v1 hall hne
      refine tryCmpAt_none _ _ _ ?_
      intro d1 d2 r2 heq hc
      rw [dropWhile_append_stop isWordChar v1 ' ' _ hall (by decide)] at heq
      rw [show List.dropWhile isWs
          (' ' :: '!' :: '=' :: ' ' :: '"' :: (lit ++ ['"'])) =
          '!' :: '=' :: ' ' :: '"' :: (lit ++ ['"']) from by
        simp [List.dropWhile_cons, isWs_space, show isWs '!' = false from by decide]] at heq
      simp only [List.cons.injEq] at heq
      obtain ⟨rfl, rfl, -⟩ := heq
      exact absurd hc.1 (by decide)
    have hTnone : findCmp '=' '='
        (' ' :: '!' :: '=' :: ' ' :: '"' :: (lit ++ ['"'])) = none := by
      refine findCmp_cons_none (tryCmpAt_notword (by decide)) ?_
      refine findCmp_cons_none (tryCmpAt_notword (by decide)) ?_
      refine findCmp_cons_none (tryCmpAt_notword (by decide)) ?_
      refine findCmp_cons_none (tryCmpAt_notword (by decide)) ?_
      refine findCmp_cons_none (tryCmpAt_notword (by decide)) ?_
      exact findCmp_none_word_quote '=' '=' lit hlw
    have hfindEq : findCmp '=' '='
        (v ++ ' ' :: '!' :: '=' :: ' ' :: '"' :: (lit ++ ['"'])) = none :=
      findCmp_word_skip '=' '='
        (' ' :: '!' :: '=' :: ' ' :: '"' :: (lit ++ ['"'])) hTnone hTat v hvall
    have hfindNe : findCmp '!' '='
        (v ++ ' ' :: '!' :: '=' :: ' ' :: '"' :: (lit ++ ['"'])) = some (v, lit) := by
      rw [hveq] at hat ⊢
      simp only [List.cons_append] at hat ⊢
      exact findCmp_head hat
    simp [evaluateCondition, hk, hfindEq, hfindNe]
  · intro hk hw
    have hne : '=' ∉ (notW ++ w) := by
      intro hm
      rcases List.mem_append.mp hm with hm | hm
      · simp [notW] at hm
      · exact hw hm
    have h1 := findCmp_none_no_eq '=' (notW ++ w) hne
    have h2 := findCmp_none_no_eq '!' (notW ++ w) hne
    simp [evaluateCondition, hk, h1, h2, matchLit_self]
  · intro hk hne hnot
    have h1 := findCmp_none_no_eq '=' cond hne
    have h2 := findCmp_none_no_eq '!' cond hne
    simp [evaluateCondition, hk, h1, h2, hnot]

/-- Witness for C6: all five clauses at concrete inputs over the context
with a = "x". -/
theorem C6_condition_evaluation_witness :
    evaluateCondition "a".data [("a".data, Value.str "x".data)] = true ∧
    evaluateCondition ("b".data ++ (" == \"".data ++ ("x".data ++ "\"".data)))
      [("a".data, Value.str "x".data)] = false ∧
    evaluateCondition ("b".data ++ (" != \"".data ++ ("x".data ++ "\"".data)))
      [("a".data, Value.str "x".data)] = true ∧
    evaluateCondition (notW ++ "a".data) [("a".data, Value.str "x".data)] = false ∧
    evaluateCondition "zz".data [("a".data, Value.str "x".data)] = false := by
  have h1 := C6_condition_evaluation [("a".data, Value.str "x".data)] "a".data
    "a".data "b".data "x".data (by decide) (by decide) (by decide)
  have h2 := C6_condition_evaluation [("a".data, Value.str "x".data)] "zz".data
    "a".data "b".data "x".data (by decide) (by decide) (by decide)
  refine ⟨?_, ?_, ?_, ?_, ?_⟩
  · rw [h1.1 (by decide)]; decide
  · rw [h1.2.1 (by decide)]; decide
  · rw [h1.2.2.1 (by decide)]; decide
  · rw [h1.2.2.2.1 (by decide) (by decide)]; decide
  · exact h2.2.2.2.2 (by decide) (by decide) (by decide)

/-- C6 counterexample: the comparison pattern is unanchored, so a
condition that is neither a context key nor itself of the
identifier == "literal" shape still evaluates to true, because the
pattern matches in the middle of the string. -/
theorem C6_unanchored_comparison_counterexample :
    evaluateCondition ("foo(a == \"x\")".data) [("a".data, Value.str "x".data)] = true ∧
    hasKey [("a".data, Value.str "x".data)] ("foo(a == \"x\")".data) = false := by
  decide

/-- C8: graceful degradation (totality is by construction: the rendering
pipeline is a total function of template and context): an unclosed
if-block and an unclosed for-block render unchanged under every context;
a missing variable's placeholder stays verbatim; an unknown filter
passes the value through unchanged; and a for-loop whose target is bound
to a non-array value renders the whole construct to the empty string. -/
theorem C8_totality_degradation :
    (∀ ctx : Context,
      renderTemplate ("\x7b% if a %\x7dX".data) ctx = "\x7b% if a %\x7dX".data) ∧
    (∀ ctx : Context,
      renderTemplate ("\x7b% for i in xs %\x7dX".data) ctx =
        "\x7b% for i in xs %\x7dX".data) ∧
    renderTemplate ("\x7b\x7bmissing\x7d\x7d".data) [] =
      "\x7b\x7bmissing\x7d\x7d".data ∧
    (∀ v : Value, applyFilter v ("bogus".data) = v) ∧
    renderTemplate ("A\x7b% for i in xs %\x7dX\x7b% endfor %\x7dB".data)
      [("xs".data, Value.num 3)] = "AB".data := by
  refine ⟨?_, ?_, ?_, ?_, ?_⟩
  · intro ctx
    simp [renderTemplate_eq, handleConditionals_step, handleForLoops_step,
      handleVariables_step, handleFilters_step, renderEach_nil, renderEach_cons,
      tryMatchIf, tryMatchVar, tryMatchFilter, tryMatchFor, matchLit, matchWsClose,
      scanCond, scanIfBody, scanUntilTag, matchTag, evaluateCondition, hasKey, getKey,
      ctxFind, truthy, isWs, isWordChar, isPathChar, headWs, elseW, endifW, ifW, forW,
      inW, endforW, notW, getNestedValue, splitOnCh, walkParts, objTruthy, inValue,
      indexValue, parseIndex, isDigitCh, lengthW, jsString, joinWith, elemString,
      ctxInsert, applyFilter, parseFilter, findQuoted, extractLit, isQuote, trimWs,
      joinBar, strictEqStr, findCmp, tryCmpAt]
  · intro ctx
    simp [renderTemplate_eq, handleConditionals_step, handleForLoops_step,
      handleVariables_step, handleFilters_step, renderEach_nil, renderEach_cons,
      tryMatchIf, tryMatchVar, tryMatchFilter, tryMatchFor, matchLit, matchWsClose,
      scanCond, scanIfBody, scanUntilTag, matchTag, evaluateCondition, hasKey, getKey,
      ctxFind, truthy, isWs, isWordChar, isPathChar, headWs, elseW, endifW, ifW, forW,
      inW, endforW, notW, getNestedValue, splitOnCh, walkParts, objTruthy, inValue,
      indexValue, parseIndex, isDigitCh, lengthW, jsString, joinWith, elemString,
      ctxInsert, applyFilter, parseFilter, findQuoted, extractLit, isQuote, trimWs,
      joinBar, strictEqStr, findCmp, tryCmpAt]
  · simp [renderTemplate_eq, handleConditionals_step, handleForLoops_step,
      handleVariables_step, handleFilters_step, renderEach_nil, renderEach_cons,
      tryMatchIf, tryMatchVar, tryMatchFilter, tryMatchFor, matchLit, matchWsClose,
      scanCond, scanIfBody, scanUntilTag, matchTag, evaluateCondition, hasKey, getKey,
      ctxFind, truthy, isWs, isWordChar, isPathChar, headWs, elseW, endifW, ifW, forW,
      inW, endforW, notW, getNestedValue, splitOnCh, walkParts, objTruthy, inValue,
      indexValue, parseIndex, isDigitCh, lengthW, jsString, joinWith, elemString,
      ctxInsert, applyFilter, parseFilter, findQuoted, extractLit, isQuote, trimWs,
      joinBar, strictEqStr, findCmp, tryCmpAt]
  · intro v
    have hb : ("bogus".data : List Char) = ['b', 'o', 'g', 'u', 's'] := rfl
    rw [hb]
    simp [applyFilter, parseFilter, isWordChar, List.takeWhile_cons,
      List.dropWhile_cons,
      show ¬(['b', 'o', 'g', 'u', 's'] = "default".data) from by decide,
      show ¬(['b', 'o', 'g', 'u', 's'] = "upper".data) from by decide,
      show ¬(['b', 'o', 'g', 'u', 's'] = "lower".data) from by decide,
      show ¬(['b', 'o', 'g', 'u', 's'] = "capitalize".data) from by decide,
      show ¬(['b', 'o', 'g', 'u', 's'] = "length".data) from by decide,
      show ¬(['b', 'o', 'g', 'u', 's'] = "join".data) from by decide]
  · simp [renderTemplate_eq, handleConditionals_step, handleForLoops_step,
      handleVariables_step, handleFilters_step, renderEach_nil, renderEach_cons,
      tryMatchIf, tryMatchVar, tryMatchFilter, tryMatchFor, matchLit, matchWsClose,
      scanCond, scanIfBody, scanUntilTag, matchTag, evaluateCondition, hasKey, getKey,
      ctxFind, truthy, isWs, isWordChar, isPathChar, headWs, elseW, endifW, ifW, forW,
      inW, endforW, notW, getNestedValue, splitOnCh, walkParts, objTruthy, inValue,
      indexValue, parseIndex, isDigitCh, lengthW, jsString, joinWith, elemString,
      ctxInsert, applyFilter, parseFilter, findQuoted, extractLit, isQuote, trimWs,
      joinBar, strictEqStr, findCmp, tryCmpAt]

/-! ## Escape-analysis machinery (C1) -/

theorem hasPair_cons_weaken {p q a : Char} {r : List Char}
    (h : hasPair p q r = true) : hasPair p q (a :: r) = true := by
  cases r with
  | nil => simp [hasPair] at h
  | cons b t => simp [hasPair, h]

theorem findClose2_hasPair {d1 d2 : Char} : ∀ {s : List Char},
    findClose2 d1 d2 s = true → hasPair d1 d2 s = true := by
  intro s
  induction s with
  | nil => intro h; simp [findClose2] at h
  | cons c rest ih =>
    intro h
    cases rest with
    | nil => simp [findClose2] at h
    | cons c2 t =>
      simp only [findClose2, Bool.or_eq_true, Bool.and_eq_true,
        decide_eq_true_eq] at h
      rcases h with h | h
      · simp [hasPair, h.1, h.2]
      · exact hasPair_cons_weaken (ih h.2)

theorem hasTemplateSyntax_pairs : ∀ s : List Char, hasTemplateSyntax s = true →
    hasPair '}' '}' s = true ∨ hasPair '%' '}' s = true := by
  intro s
  induction s with
  | nil => intro h; simp [hasTemplateSyntax] at h
  | cons c rest ih =>
    intro h
    cases rest with
    | nil => simp [hasTemplateSyntax] at h
    | cons c2 t =>
      simp only [hasTemplateSyntax, Bool.or_eq_true, Bool.and_eq_true,
        decide_eq_true_eq] at h
      rcases h with h | h
      · rcases h with h | h
        · exact Or.inl (hasPair_cons_weaken (hasPair_cons_weaken (findClose2_hasPair h.2)))
        · exact Or.inr (hasPair_cons_weaken (hasPair_cons_weaken (findClose2_hasPair h.2)))
      · rcases ih h with h | h
        · exact Or.inl (hasPair_cons_weaken h)
        · exact Or.inr (hasPair_cons_weaken h)

/-- The head of a replacement-stage output is the backslash that starts
the replacement text, or the untouched head of the input. -/
theorem replacePair_head {p1 p2 : Char} {r0 : List Char} {s : List Char}
    {d : Char} {t : List Char}
    (h : replacePair p1 p2 ('\\' :: r0) s = d :: t) :
    d = '\\' ∨ ∃ t0, s = d :: t0 := by
  cases s with
  | nil => simp [replacePair] at h
  | cons c1 s' =>
    cases s' with
    | nil =>
      simp only [replacePair, List.cons.injEq] at h
      exact Or.inr ⟨[], by rw [h.1]⟩
    | cons c2 rest =>
      by_cases hm : c1 = p1 ∧ c2 = p2
      · rw [replacePair, if_pos hm] at h
        simp only [List.cons_append, List.cons.injEq] at h
        exact Or.inl h.1.symm
      · rw [replacePair, if_neg hm] at h
        simp only [List.cons.injEq] at h
        exact Or.inr ⟨c2 :: rest, by rw [h.1]⟩

theorem hasTriple_cons_ne {p a : Char} (ha : ¬(a = p)) (r : List Char) :
    hasTriple p (a :: r) = hasTriple p r := by
  cases r with
  | nil => simp [hasTriple]
  | cons c2 t2 =>
    cases t2 with
    | nil => simp [hasTriple]
    | cons c3 t3 => simp [hasTriple, ha]

theorem hasTriple_tail {p a : Char} {r : List Char}
    (h : hasTriple p (a :: r) = false) : hasTriple p r = false := by
  cases r with
  | nil => rfl
  | cons c2 t2 =>
    cases t2 with
    | nil => rfl
    | cons c3 t3 =>
      simp only [hasTriple, Bool.or_eq_false_iff] at h
      exact h.2

theorem hasTriple_head3 {p d : Char} {r : List Char}
    (h : hasTriple p (p :: p :: d :: r) = false) : ¬(d = p) := by
  intro hd
  subst hd
  simp [hasTriple] at h

/-- The first escape stage (replacing each open-brace pair) cannot
manufacture a triple close-brace. -/
theorem stage1_no_triple : ∀ s : List Char, hasTriple '}' s = false →
    hasTriple '}' (replacePair '{' '{' ['\\', '{', '\\', '{'] s) = false := by
  intro s
  induction s using replacePair.induct '{' '{' ['\\', '{', '\\', '{'] with
  | case1 => intro _; simp [replacePair, hasTriple]
  | case2 c => intro _; simp [replacePair, hasTriple]
  | case3 c1 c2 rest hm ih =>
    intro h
    obtain ⟨rfl, rfl⟩ := hm
    rw [replacePair, if_pos ⟨rfl, rfl⟩]
    have hrec := ih (hasTriple_tail (hasTriple_tail h))
    simp only [List.cons_append, List.nil_append]
    rw [hasTriple_cons_ne (by decide), hasTriple_cons_ne (by decide),
      hasTriple_cons_ne (by decide), hasTriple_cons_ne (by decide)]
    exact hrec
  | case4 c1 c2 rest hm ih =>
    intro h
    rw [replacePair, if_neg hm]
    have hrec := ih (hasTriple_tail h)
    by_cases hc1 : c1 = '}'
    · subst hc1
      cases hY : replacePair '{' '{' ['\\', '{', '\\', '{'] (c2 :: rest) with
      | nil => simp [hasTriple]
      | cons y1 ys =>
        cases ys with
        | nil => simp [hasTriple]
        | cons y2 ys' =>
          rw [hY] at hrec
          rcases replacePair_head hY with hy1 | ⟨t0, hy1⟩
          · rw [hy1] at hrec ⊢
            simp [hasTriple, hrec]
          · have hy1e : c2 = y1 := by
              have := congrArg (fun l => l.headD ' ') hy1
              simpa using this
            by_cases hc2 : c2 = '}'
            · subst hc2
              cases rest with
              | nil => simp [replacePair] at hY
              | cons r1 rs =>
                rw [replacePair, if_neg (by
                  rintro ⟨h1, -⟩
                  exact absurd h1 (by decide))] at hY
                have hr1 : ¬(r1 = '}') := hasTriple_head3 h
                have hY1 : y1 = '}' := by
                  have := congrArg (fun l => l.headD ' ') hY
                  simpa using this.symm
                have hY2 : replacePair '{' '{' ['\\', '{', '\\', '{'] (r1 :: rs) =
                    y2 :: ys' := by
                  have := congrArg (fun l => l.tail) hY
                  simpa using this
                have hy2ne : ¬(y2 = '}') := by
                  rcases replacePair_head hY2 with hy2 | ⟨t1, hy2⟩
                  · rw [hy2]; decide
                  · have : r1 = y2 := by
                      have := congrArg (fun l => l.headD ' ') hy2
                      simpa using this
                    intro hh
                    exact hr1 (this.trans hh)
                subst hY1
                simp [hasTriple, hrec, hy2ne]
            · have hy1ne : ¬(y1 = '}') := fun hh => hc2 (hy1e.trans hh)
              simp [hasTriple, hrec, hy1ne]
    · rw [hasTriple_cons_ne hc1]
      exact hrec

/-- The second escape stage removes every adjacent close-brace pair,
provided the input has no triple close-brace. -/
theorem stage2_kills : ∀ s : List Char, hasTriple '}' s = false →
    hasPair '}' '}' (replacePair '}' '}' ['\\', '}', '\\', '}'] s) = false := by
  intro s
  induction s using replacePair.induct '}' '}' ['\\', '}', '\\', '}'] with
  | case1 => intro _; simp [replacePair, hasPair]
  | case2 c => intro _; simp [replacePair, hasPair]
  | case3 c1 c2 rest hm ih =>
    intro h
    obtain ⟨rfl, rfl⟩ := hm
    rw [replacePair, if_pos ⟨rfl, rfl⟩]
    have hrec := ih (hasTriple_tail (hasTriple_tail h))
    cases hY : replacePair '}' '}' ['\\', '}', '\\', '}'] rest with
    | nil => decide
    | cons d t' =>
      have hd : ¬(d = '}') := by
        rcases replacePair_head hY with h' | ⟨t0, h'⟩
        · rw [h']; decide
        · rw [h'] at h
          exact hasTriple_head3 h
      refine hasPair_append_false _ _ ?_ ?_
      · simp [hasPair, hd]
      · rw [hY] at hrec
        exact hrec
  | case4 c1 c2 rest hm ih =>
    intro h
    rw [replacePair, if_neg hm]
    have hrec := ih (hasTriple_tail h)
    refine hasPair_cons_of hrec ?_
    intro d t' hY hc
    rcases replacePair_head hY with h' | ⟨t0, h'⟩
    · rw [h'] at hc
      exact absurd hc.2 (by decide)
    · have hc2 : c2 = d := by
        have := congrArg (fun l => l.headD ' ') h'
        simpa using this
      exact hm ⟨hc.1, hc2.trans hc.2⟩

/-- The third escape stage (open-brace-percent) neither creates nor
uncovers a close-brace pair. -/
theorem stage3_preserve : ∀ s : List Char, hasPair '}' '}' s = false →
    hasPair '}' '}' (replacePair '{' '%' ['\\', '{', '\\', '%'] s) = false := by
  intro s
  induction s using replacePair.induct '{' '%' ['\\', '{', '\\', '%'] with
  | case1 => intro _; simp [replacePair, hasPair]
  | case2 c => intro _; simp [replacePair, hasPair]
  | case3 c1 c2 rest hm ih =>
    intro h
    obtain ⟨rfl, rfl⟩ := hm
    rw [replacePair, if_pos ⟨rfl, rfl⟩]
    have hrec := ih (hasPair_tail (hasPair_tail h))
    cases hY : replacePair '{' '%' ['\\', '{', '\\', '%'] rest with
    | nil => decide
    | cons d t' =>
      refine hasPair_append_false _ _ ?_ ?_
      · simp [hasPair]
      · rw [hY] at hrec
        exact hrec
  | case4 c1 c2 rest hm ih =>
    intro h
    rw [replacePair, if_neg hm]
    have hrec := ih (hasPair_tail h)
    refine hasPair_cons_of hrec ?_
    intro d t' hY hc
    rcases replacePair_head hY with h' | ⟨t0, h'⟩
    · rw [h'] at hc
      exact absurd hc.2 (by decide)
    · have hc2 : c2 = d := by
        have := congrArg (fun l => l.headD ' ') h'
        simpa using this
      exact absurd ((hasPair_cons_false h).1) (by simp [hc.1, hc2.trans hc.2])

/-- The fourth escape stage (percent-close-brace) preserves the absence
of close-brace pairs. -/
theorem stage4_preserve : ∀ s : List Char, hasPair '}' '}' s = false →
    hasPair '}' '}' (replacePair '%' '}' ['\\', '%', '\\', '}'] s) = false := by
  intro s
  induction s using replacePair.induct '%' '}' ['\\', '%', '\\', '}'] with
  | case1 => intro _; simp [replacePair, hasPair]
  | case2 c => intro _; simp [replacePair, hasPair]
  | case3 c1 c2 rest hm ih =>
    intro h
    obtain ⟨rfl, rfl⟩ := hm
    rw [replacePair, if_pos ⟨rfl, rfl⟩]
    have hrec := ih (hasPair_tail (hasPair_tail h))
    cases hY : replacePair '%' '}' ['\\', '%', '\\', '}'] rest with
    | nil => decide
    | cons d t' =>
      have hd : ¬(d = '}') := by
        rcases replacePair_head hY with h' | ⟨t0, h'⟩
        · rw [h']; decide
        · rw [h'] at h
          intro hh
          exact absurd ((hasPair_cons_false (hasPair_tail h)).1) (by simp [hh])
      refine hasPair_append_false _ _ ?_ ?_
      · simp [hasPair, hd]
      · rw [hY] at hrec
        exact hrec
  | case4 c1 c2 rest hm ih =>
    intro h
    rw [replacePair, if_neg hm]
    have hrec := ih (hasPair_tail h)
    refine hasPair_cons_of hrec ?_
    intro d t' hY hc
    rcases replacePair_head hY with h' | ⟨t0, h'⟩
    · rw [h'] at hc
      exact absurd hc.2 (by decide)
    · have hc2 : c2 = d := by
        have := congrArg (fun l => l.headD ' ') h'
        simpa using this
      exact absurd ((hasPair_cons_false h).1) (by simp [hc.1, hc2.trans hc.2])

/-- The final escape stage never leaves a percent-close-brace pair in
its output, whatever the input. -/
theorem replacePair_no_pct : ∀ s : List Char,
    hasPair '%' '}' (replacePair '%' '}' ['\\', '%', '\\', '}'] s) = false := by
  intro s
  induction s using replacePair.induct '%' '}' ['\\', '%', '\\', '}'] with
  | case1 => simp [replacePair, hasPair]
  | case2 c => simp [replacePair, hasPair]
  | case3 c1 c2 rest hm ih =>
    obtain ⟨rfl, rfl⟩ := hm
    rw [replacePair, if_pos ⟨rfl, rfl⟩]
    cases hY : replacePair '%' '}' ['\\', '%', '\\', '}'] rest with
    | nil => decide
    | cons d t' =>
      refine hasPair_append_false _ _ ?_ ?_
      · simp [hasPair]
      · rw [hY] at ih
        exact ih
  | case4 c1 c2 rest hm ih =>
    rw [replacePair, if_neg hm]
    refine hasPair_cons_of ih ?_
    intro d t' hY hc
    rcases replacePair_head hY with h' | ⟨t0, h'⟩
    · rw [h'] at hc
      exact absurd hc.2 (by decide)
    · have hc2 : c2 = d := by
        have := congrArg (fun l => l.headD ' ') h'
        simpa using this
      exact hm ⟨hc.1, hc2.trans hc.2⟩

/-- Manual unescaping: remove every backslash. -/
def stripBS (s : List Char) : List Char := s.filter (fun c => !(c = '\\'))

theorem replacePair_strip (p1 p2 : Char) (rep : List Char)
    (hp1 : ¬(p1 = '\\')) (hp2 : ¬(p2 = '\\'))
    (hrep : stripBS rep = [p1, p2]) :
    ∀ s, stripBS (replacePair p1 p2 rep s) = stripBS s := by
  intro s
  induction s using replacePair.induct p1 p2 rep with
  | case1 => simp [replacePair]
  | case2 c => simp [replacePair]
  | case3 c1 c2 rest hm ih =>
    rw [replacePair, if_pos hm]
    obtain ⟨rfl, rfl⟩ := hm
    simp only [stripBS] at hrep ih ⊢
    rw [List.filter_append, hrep, ih]
    simp [List.filter_cons, hp1, hp2]
  | case4 c1 c2 rest hm ih =>
    rw [replacePair, if_neg hm]
    simp only [stripBS] at ih ⊢
    simp [List.filter_cons, ih]

theorem stripBS_id {t : List Char} (h : '\\' ∉ t) : stripBS t = t := by
  rw [stripBS, List.filter_eq_self]
  intro a ha
  simp only [Bool.not_eq_true', decide_eq_false_iff_not]
  intro hh
  exact h (hh ▸ ha)

theorem escapeTemplate_strip (t : List Char) :
    stripBS (escapeTemplate t) = stripBS t := by
  rw [escapeTemplate]
  rw [replacePair_strip '%' '}' ['\\', '%', '\\', '}'] (by decide) (by decide) (by decide)]
  rw [replacePair_strip '{' '%' ['\\', '{', '\\', '%'] (by decide) (by decide) (by decide)]
  rw [replacePair_strip '}' '}' ['\\', '}', '\\', '}'] (by decide) (by decide) (by decide)]
  rw [replacePair_strip '{' '{' ['\\', '{', '\\', '{'] (by decide) (by decide) (by decide)]

/-- C1 (corrected): for a backslash-free template with no triple
close-brace, the escaped text passes hasTemplateSyntax as false and
removing the inserted backslashes restores the original; the claim's
unconditional version fails at a triple brace (see the counterexample
theorem). -/
theorem C1_escape_roundtrip (t : List Char)
    (ht : hasTriple '}' t = false) (hbs : '\\' ∉ t) :
    hasTemplateSyntax (escapeTemplate t) = false ∧
    stripBS (escapeTemplate t) = t := by
  constructor
  · cases hts : hasTemplateSyntax (escapeTemplate t)
    · rfl
    · exfalso
      rcases hasTemplateSyntax_pairs _ hts with hpp | hpc
      · have h1 := stage1_no_triple t ht
        have h2 := stage2_kills _ h1
        have h3 := stage3_preserve _ h2
        have h4 := stage4_preserve _ h3
        rw [escapeTemplate, h4] at hpp
        cases hpp
      · have h5 := replacePair_no_pct
          (replacePair '{' '%' ['\\', '{', '\\', '%']
            (replacePair '}' '}' ['\\', '}', '\\', '}']
              (replacePair '{' '{' ['\\', '{', '\\', '{'] t)))
        rw [escapeTemplate, h5] at hpc
        cases hpc
  · rw [escapeTemplate_strip]
    exact stripBS_id hbs

/-- Witness for C1 at a template containing both marker kinds. -/
theorem C1_escape_roundtrip_witness :
    hasTemplateSyntax (escapeTemplate ("a\x7b\x7bb\x7d\x7dc\x7b% d %\x7d".data)) = false ∧
    stripBS (escapeTemplate ("a\x7b\x7bb\x7d\x7dc\x7b% d %\x7d".data)) =
      "a\x7b\x7bb\x7d\x7dc\x7b% d %\x7d".data :=
  C1_escape_roundtrip _ (by decide) (by decide)

/-- C1 counterexample: "\x7b\x7b\x7b\x7d\x7d\x7d" contains the marker
"\x7b\x7b", yet its escape still passes hasTemplateSyntax as true: the
escape of the triple braces regenerates an open pair and a close pair. -/
theorem C1_escape_counterexample :
    hasPair '{' '{' ("\x7b\x7b\x7b\x7d\x7d\x7d".data) = true ∧
    hasTemplateSyntax (escapeTemplate ("\x7b\x7b\x7b\x7d\x7d\x7d".data)) = true := by
  decide


end Tmpl
